import Mathlib

/-!
Shallow embedding of the mini-NoSQL-Library_Catalog repository
(src/src/solutions.py, src/scripts/ingest_openlibrary_dump.py,
src/scripts/ingest_openlibrary.py) and proofs about it.

Values stored in documents are modelled by `BVal` (a BSON/Python value:
null, string, int, bool, datetime).  A MongoDB document is an association
list of field names to values plus an identity (`_id`); a collection is a
list of documents.  External collaborators (the `datetime` library,
`pymongo`/MongoDB filter and aggregation semantics) are modelled from their
documented behaviour, as used by the repository.

All string manipulation is done on `List Char` so that concrete instances
reduce by `decide`; `String.toList`/`String.mk` convert at the edges.
-/

/-- Naive Python `datetime` value (microseconds are not modelled; none of the
formats the repository parses produce them except the ISO fraction, whose
digits are validated but discarded). -/
structure DT where
  year : Nat
  month : Nat
  day : Nat
  hour : Nat := 0
  minute : Nat := 0
  second : Nat := 0
deriving DecidableEq, Repr

/-- BSON/Python value as stored in a document field. -/
inductive BVal where
  | vnull
  | vstr (s : String)
  | vint (n : Int)
  | vbool (b : Bool)
  | vdate (d : DT)
deriving DecidableEq, Repr

/-- Python truthiness of a `BVal` (`None`, `""`, `0`, `False` are falsy). -/
def truthy : BVal → Bool
  | .vnull => false
  | .vstr s => s ≠ ""
  | .vint n => n ≠ 0
  | .vbool b => b
  | .vdate _ => true

/-- Python `str()` of a `BVal` (only used for non-null, non-datetime values
in `parse_date_maybe`). -/
def pyStr : BVal → String
  | .vnull => "None"
  | .vstr s => s
  | .vint n => toString n
  | .vbool b => if b then "True" else "False"
  | .vdate _ => ""

/-- Python whitespace characters stripped by `str.strip()` (ASCII subset). -/
def isPySpace (c : Char) : Bool :=
  c = ' ' || c = '\t' || c = '\n' || c = '\r' || c = '\x0b' || c = '\x0c'

/-- Model of Python `str.strip()` on a character list. -/
def pyStrip (cs : List Char) : List Char :=
  ((cs.dropWhile isPySpace).reverse.dropWhile isPySpace).reverse

/-- Gregorian leap-year rule used by `datetime`. -/
def isLeap (y : Nat) : Bool :=
  (y % 4 = 0 && y % 100 ≠ 0) || y % 400 = 0

/-- Days in a month, as validated by the `datetime` constructor. -/
def daysInMonth (y m : Nat) : Nat :=
  if m = 2 then (if isLeap y then 29 else 28)
  else if m = 4 || m = 6 || m = 9 || m = 11 then 30
  else 31

/-- Model of the Python `datetime(y, m, d)` constructor: returns `none`
exactly when the constructor raises (out-of-range component). -/
def mkDatetime (y m d : Nat) : Option DT :=
  if 1 ≤ y && y ≤ 9999 && 1 ≤ m && m ≤ 12 && 1 ≤ d && d ≤ daysInMonth y m then
    some { year := y, month := m, day := d }
  else none

/-- Model of `datetime(y, m, d, hh, mi, ss)` validation for the ISO path. -/
def mkDatetimeT (y m d hh mi ss : Nat) : Option DT :=
  if 1 ≤ y && y ≤ 9999 && 1 ≤ m && m ≤ 12 && 1 ≤ d && d ≤ daysInMonth y m
      && hh ≤ 23 && mi ≤ 59 && ss ≤ 59 then
    some { year := y, month := m, day := d, hour := hh, minute := mi, second := ss }
  else none

/-- Numeric value of a digit list (digits already validated). -/
def digitsVal (cs : List Char) : Nat :=
  cs.foldl (fun a c => a * 10 + (c.toNat - 48)) 0

/-- Take exactly `n` leading decimal digits, returning their value and the
rest of the input (`none` if fewer than `n` digits are available). -/
def splitDigits (cs : List Char) (n : Nat) : Option (Nat × List Char) :=
  let pre := cs.take n
  if pre.length = n && pre.all Char.isDigit then some (digitsVal pre, cs.drop n)
  else none

/-- Expect the single character `c` at the head of the input. -/
def sepP (c : Char) : List Char → Option (List Char)
  | [] => none
  | x :: r => if x = c then some r else none

/-- First `some` in a list of options (used for regex-style alternation). -/
def firstSome {α : Type} : List (Option α) → Option α
  | [] => none
  | some a :: _ => some a
  | none :: t => firstSome t

/-- A 1-or-2 digit field as matched by CPython `strptime` for `%m`/`%d`:
a two-digit match with value `1..maxTwo`, or a one-digit match with value
`1..9`, tried in that order (mirrors the regex alternation). -/
def p12 (maxTwo : Nat) (cs : List Char) : List (Nat × List Char) :=
  (match splitDigits cs 2 with
   | some (v, r) => if 1 ≤ v && v ≤ maxTwo then [(v, r)] else []
   | none => []) ++
  (match splitDigits cs 1 with
   | some (v, r) => if 1 ≤ v then [(v, r)] else []
   | none => [])

/-- Syntactic match of `strptime` pattern year-sep-month-sep-day
(formats `%Y-%m-%d`, `%Y/%m/%d`, `%Y.%m.%d`); the whole input must be
consumed, as `strptime` requires. -/
def strpYMDg (sep : Char) (cs : List Char) : Option (Nat × Nat × Nat) :=
  match splitDigits cs 4 with
  | none => none
  | some (y, r1) =>
    match sepP sep r1 with
    | none => none
    | some r2 =>
      firstSome ((p12 12 r2).map (fun p =>
        match sepP sep p.2 with
        | none => none
        | some r4 =>
          firstSome ((p12 31 r4).map (fun q =>
            if q.2 = [] then some (y, p.1, q.1) else none))))

/-- Syntactic match of pattern day-sep-month-sep-year
(formats `%d/%m/%Y`, `%d-%m-%Y`). -/
def strpDMYg (sep : Char) (cs : List Char) : Option (Nat × Nat × Nat) :=
  firstSome ((p12 31 cs).map (fun p =>
    match sepP sep p.2 with
    | none => none
    | some r2 =>
      firstSome ((p12 12 r2).map (fun q =>
        match sepP sep q.2 with
        | none => none
        | some r4 =>
          match splitDigits r4 4 with
          | some (y, r5) => if r5 = [] then some (y, q.1, p.1) else none
          | none => none))))

/-- Syntactic match of pattern month/day/year (format `%m/%d/%Y`). -/
def strpMDYg (cs : List Char) : Option (Nat × Nat × Nat) :=
  firstSome ((p12 12 cs).map (fun p =>
    match sepP '/' p.2 with
    | none => none
    | some r2 =>
      firstSome ((p12 31 r2).map (fun q =>
        match sepP '/' q.2 with
        | none => none
        | some r4 =>
          match splitDigits r4 4 with
          | some (y, r5) => if r5 = [] then some (y, p.1, q.1) else none
          | none => none))))

/-- Model of `datetime.strptime(s, fmt)` for the three YMD-style formats:
regex match then `datetime` construction (which validates the day). -/
def strpYMD (sep : Char) (cs : List Char) : Option DT :=
  (strpYMDg sep cs).bind (fun t => mkDatetime t.1 t.2.1 t.2.2)

/-- Model of `datetime.strptime(s, fmt)` for the two DMY-style formats. -/
def strpDMY (sep : Char) (cs : List Char) : Option DT :=
  (strpDMYg sep cs).bind (fun t => mkDatetime t.1 t.2.1 t.2.2)

/-- Model of `datetime.strptime(s, "%m/%d/%Y")`. -/
def strpMDY (cs : List Char) : Option DT :=
  (strpMDYg cs).bind (fun t => mkDatetime t.1 t.2.1 t.2.2)

/-- Valid Python integer-literal digit run: digits with single underscores
strictly between digits (`int("1_0")` is legal, `int("_1")`/`int("1__0")`
are not). -/
def pyDigitRun : List Char → Bool
  | [] => true
  | ['_'] => false
  | '_' :: c :: r => c.isDigit && pyDigitRun r
  | c :: r => c.isDigit && pyDigitRun r

/-- Model of Python `int(s)` on an already-stripped string: optional sign,
then a digit run with optional single underscores (unicode digits are not
modelled). -/
def pyInt (cs : List Char) : Option Int :=
  let core : List Char → Option Nat := fun ds =>
    match ds with
    | [] => none
    | c :: _ => if c.isDigit && pyDigitRun ds then some (digitsVal (ds.filter Char.isDigit)) else none
  match cs with
  | '+' :: r => (core r).map (fun n => (n : Int))
  | '-' :: r => (core r).map (fun n => -(n : Int))
  | r => (core r).map (fun n => (n : Int))

/-- Model of the source's special `"%Y"` branch:
`datetime(int(s), 1, 1)`, i.e. any `int`-parseable string whose value is a
valid `datetime` year (1..9999) yields January 1 of that year. -/
def fmtYear (cs : List Char) : Option DT :=
  (pyInt cs).bind (fun n =>
    if 1 ≤ n && n ≤ 9999 then some { year := n.toNat, month := 1, day := 1 } else none)

/-- Model of `s.replace("Z", "+00:00")` on a character list. -/
def replaceZ : List Char → List Char
  | [] => []
  | 'Z' :: t => '+' :: '0' :: '0' :: ':' :: '0' :: '0' :: replaceZ t
  | c :: t => c :: replaceZ t

/-- Offset tail accepted after the time part: empty, or sign, 2 digits,
colon, 2 digits with minutes below 60 (the offset is validated and then
discarded by `.replace(tzinfo=None)`). -/
def isoOffsetOk (cs : List Char) : Bool :=
  match cs with
  | [] => true
  | s :: r =>
    (s = '+' || s = '-') &&
    (match splitDigits r 2 with
     | some (hh, r1) =>
       (match sepP ':' r1 with
        | some r2 =>
          (match splitDigits r2 2 with
           | some (mm, r3) => hh ≤ 23 && mm ≤ 59 && r3 = []
           | none => false)
        | none => false)
     | none => false)

/-- Fractional-seconds tail: a dot or comma followed by one or more digits
(digits validated, value discarded since `DT` has no microseconds), then an
optional offset. -/
def isoFracOk (cs : List Char) : Bool :=
  match cs with
  | [] => true
  | c :: r =>
    if c = '.' || c = ',' then
      let ds := r.takeWhile Char.isDigit
      ds ≠ [] && isoOffsetOk (r.drop ds.length)
    else isoOffsetOk cs

/-- Time part `HH:MM[:SS[.ffffff]][offset]` of the ISO form. -/
def isoTime (cs : List Char) : Option (Nat × Nat × Nat) :=
  match splitDigits cs 2 with
  | none => none
  | some (hh, r1) =>
    match sepP ':' r1 with
    | none => none
    | some r2 =>
      match splitDigits r2 2 with
      | none => none
      | some (mi, r3) =>
        match r3 with
        | ':' :: r4 =>
          (match splitDigits r4 2 with
           | some (ss, r5) => if isoFracOk r5 then some (hh, mi, ss) else none
           | none => none)
        | _ => if isoOffsetOk r3 then some (hh, mi, 0) else none

/-- Model of `datetime.fromisoformat(s.replace("Z", "+00:00")).replace(tzinfo=None)`
restricted to the common subset `YYYY-MM-DD[<sep>HH:MM[:SS[.ffffff]]][+HH:MM]`
with any single separator character between date and time; compact forms
without dashes are not modelled.  Returns a naive datetime, the parsed
offset being discarded. -/
def pyFromIso (cs0 : List Char) : Option DT :=
  let cs := replaceZ cs0
  match splitDigits cs 4 with
  | none => none
  | some (y, r1) =>
    match sepP '-' r1 with
    | none => none
    | some r2 =>
      match splitDigits r2 2 with
      | none => none
      | some (m, r3) =>
        match sepP '-' r3 with
        | none => none
        | some r4 =>
          match splitDigits r4 2 with
          | none => none
          | some (d, r5) =>
            match r5 with
            | [] => mkDatetime y m d
            | _ :: r6 =>
              match isoTime r6 with
              | some t => mkDatetimeT y m d t.1 t.2.1 t.2.2
              | none => none

/-- The ordered `fmts` tuple of `parse_date_maybe`:
`"%Y-%m-%d", "%d/%m/%Y", "%m/%d/%Y", "%Y/%m/%d", "%Y.%m.%d", "%d-%m-%Y", "%Y"`,
each tried in order, first success wins. -/
def tryFormats (cs : List Char) : Option DT :=
  firstSome
    [strpYMD '-' cs, strpDMY '/' cs, strpMDY cs, strpYMD '/' cs,
     strpYMD '.' cs, strpDMY '-' cs, fmtYear cs]

/-- Model of `solutions.parse_date_maybe`: `None` and `datetime` pass
through; otherwise `str(v).strip()` is parsed by the format list and then
the ISO-8601 fallback, returning `none` when everything fails (the Python
function catches every exception, so the model is total by construction). -/
def parse_date_maybe (v : BVal) : Option DT :=
  match v with
  | .vnull => none
  | .vdate d => some d
  | w =>
    let cs := pyStrip (pyStr w).toList
    if cs = [] then none
    else
      match tryFormats cs with
      | some d => some d
      | none => pyFromIso cs

/-- A trimmed input is recognized by the code exactly when one of the seven
`fmts` entries or the ISO fallback succeeds on it. -/
def recognizedAmended (cs : List Char) : Bool :=
  (tryFormats cs).isSome || (pyFromIso cs).isSome

/-- The recognized-format set as the spec words it: the seven separator
formats, a bare 4-digit year, or ISO-8601.  (This differs from the code,
whose year branch is `datetime(int(s), 1, 1)`, accepting any
integer-parseable string with value 1..9999.) -/
def recognizedSpec (cs : List Char) : Bool :=
  (strpYMD '-' cs).isSome || (strpDMY '/' cs).isSome || (strpMDY cs).isSome ||
  (strpYMD '/' cs).isSome || (strpYMD '.' cs).isSome || (strpDMY '-' cs).isSome ||
  (cs.length = 4 && cs.all Char.isDigit) || (pyFromIso cs).isSome

/-- MongoDB document: an `_id` plus an association list of fields. -/
structure MDoc where
  id : Nat
  fields : List (String × BVal)
deriving DecidableEq, Repr

/-- Field access (`doc.get(f)` / the stored value of field `f`); `none`
when the field is absent. -/
def getF (d : MDoc) (f : String) : Option BVal :=
  (d.fields.find? (fun p => p.1 = f)).map (fun p => p.2)

/-- Set (or append) a key in an association list, keeping its position:
the semantics of both a Python dict assignment and a `$set` update. -/
def dset {α : Type} : List (String × α) → String → α → List (String × α)
  | [], f, v => [(f, v)]
  | (g, w) :: t, f, v => if g = f then (f, v) :: t else (g, w) :: dset t f v

/-- Association-list lookup (Python `m[k]` / `k in m`). -/
def alookup {α : Type} (m : List (String × α)) (k : String) : Option α :=
  (m.find? (fun p => p.1 = k)).map (fun p => p.2)

/-- Set field `f` of a document to `v`. -/
def setF (d : MDoc) (f : String) (v : BVal) : MDoc :=
  { id := d.id, fields := dset d.fields f v }

/-- MongoDB equality match against a non-null literal. -/
def mongoEq (d : MDoc) (f : String) (v : BVal) : Bool :=
  getF d f = some v

/-- MongoDB `{f: null}` match: satisfied when the field holds BSON null or
is entirely absent (documented MongoDB behaviour). -/
def mongoNullMatch (d : MDoc) (f : String) : Bool :=
  match getF d f with
  | none => true
  | some .vnull => true
  | some _ => false

/-- Filter of `remove_empty_or_null_author_last_name`:
`{"$or": [{"author_last_name": ""}, {"author_last_name": None}]}`. -/
def lastNameFilt (d : MDoc) : Bool :=
  mongoEq d "author_last_name" (.vstr "") || mongoNullMatch d "author_last_name"

/-- Model of `solutions.remove_empty_or_null_author_last_name`: a
`delete_many` with the above filter; returns the new collection state and
the deleted count. -/
def remove_empty_or_null_author_last_name (col : List MDoc) : List MDoc × Nat :=
  (col.filter (fun d => !lastNameFilt d), (col.filter lastNameFilt).length)

/-- Deduplicate keeping first occurrences (MongoDB `distinct` returns each
distinct value of the field once; order modelled as first-seen). -/
def dedupKeepFirst (l : List BVal) : List BVal :=
  l.foldl (fun acc v => if v ∈ acc then acc else acc ++ [v]) []

/-- Model of `col.distinct(f)`: the distinct values of field `f` over all
documents possessing the field (a document with the field absent
contributes nothing; a null-valued field contributes null; array values do
not occur in this model). -/
def mdistinct (col : List MDoc) (f : String) : List BVal :=
  dedupKeepFirst (col.filterMap (fun d => getF d f))

/-- Lowercasing sort key: model of the `key=str.lower` argument; only ever
applied to strings (Python raises on anything else), non-strings map to an
arbitrary value. -/
def lowKey : BVal → List Char
  | .vstr s => s.toList.map Char.toLower
  | _ => []

/-- Lexicographic order on character lists by code point, the order Python
uses to compare the lowercased strings. -/
def lexLe : List Char → List Char → Bool
  | [], _ => true
  | _ :: _, [] => false
  | a :: as, b :: bs =>
    if a.toNat < b.toNat then true
    else if b.toNat < a.toNat then false
    else lexLe as bs

/-- Stable insertion (a new element goes after existing elements whose key
is not greater), building an ascending list. -/
def sortIns {α : Type} (le : α → α → Bool) (x : α) : List α → List α
  | [] => [x]
  | y :: ys => if le y x then y :: sortIns le x ys else x :: y :: ys

/-- Stable insertion sort: model of Python `sorted` (a stable sort). -/
def sortOrd {α : Type} (le : α → α → Bool) (l : List α) : List α :=
  l.foldl (fun acc x => sortIns le x acc) []

/-- Value is a string? -/
def isStrB : BVal → Bool
  | .vstr _ => true
  | _ => false

/-- Model of `solutions.unique_author_first_names` (alias
`distinct_author_first_names`): distinct values, drop `None` and `""`,
sort by `str.lower`.  Python raises a `TypeError` if a remaining value is
not a string; that outcome is the `.error` case. -/
def unique_author_first_names (col : List MDoc) : Except Unit (List BVal) :=
  let vals := mdistinct col "author_first_name"
  let kept := vals.filter (fun v => !(v = .vnull || v = .vstr ""))
  if kept.all isStrB then
    .ok (sortOrd (fun a b => lexLe (lowKey a) (lowKey b)) kept)
  else .error ()

/-- Grouping key of `count_by_country_python`:
`d.get("country") or "Unknown"` — any falsy value (missing field, null,
empty string, zero, false) is folded into `"Unknown"`. -/
def pyGroupKey (d : MDoc) : BVal :=
  match getF d "country" with
  | none => .vstr "Unknown"
  | some v => if truthy v then v else .vstr "Unknown"

/-- Grouping key of the `$group` stage of `count_by_country_pipeline`:
`{"$ifNull": ["$country", "Unknown"]}` — only a missing or null field is
folded into `"Unknown"`. -/
def pipeGroupKey (d : MDoc) : BVal :=
  match getF d "country" with
  | none => .vstr "Unknown"
  | some .vnull => .vstr "Unknown"
  | some v => v

/-- Increment the count of key `k` in an accumulator (first matching entry),
appending a fresh entry when absent: the behaviour of both Python `Counter`
and the `$group` accumulator. -/
def bump (m : List (BVal × Nat)) (k : BVal) : List (BVal × Nat) :=
  match m with
  | [] => [(k, 1)]
  | (k0, n) :: t => if k0 = k then (k0, n + 1) :: t else (k0, n) :: bump t k

/-- Model of `solutions.count_by_country_python`: a `Counter` over the
python grouping key, read back as a key-to-count association. -/
def count_by_country_python (col : List MDoc) : List (BVal × Nat) :=
  col.foldl (fun m d => bump m (pyGroupKey d)) []

/-- BSON comparison-order rank of a value (null < numbers < strings <
booleans < dates), used by the `$sort` stage. -/
def bsonRank : BVal → Nat
  | .vnull => 0
  | .vint _ => 1
  | .vstr _ => 2
  | .vbool _ => 3
  | .vdate _ => 4

/-- Total comparison on datetimes (lexicographic on components). -/
def dtLe (a b : DT) : Bool :=
  if a.year ≠ b.year then a.year < b.year
  else if a.month ≠ b.month then a.month < b.month
  else if a.day ≠ b.day then a.day < b.day
  else if a.hour ≠ b.hour then a.hour < b.hour
  else if a.minute ≠ b.minute then a.minute < b.minute
  else a.second ≤ b.second

/-- BSON total order on values (by type rank, then within-type). -/
def bsonLe (a b : BVal) : Bool :=
  if bsonRank a ≠ bsonRank b then bsonRank a < bsonRank b
  else match a, b with
    | .vstr x, .vstr y => lexLe x.toList y.toList
    | .vint x, .vint y => x ≤ y
    | .vbool x, .vbool y => !x || y
    | .vdate x, .vdate y => dtLe x y
    | _, _ => true

/-- Sort key of the pipeline's `$sort` stage: count descending, then `_id`
ascending. -/
def pipeSortLe (p q : BVal × Nat) : Bool :=
  if p.2 ≠ q.2 then q.2 < p.2 else bsonLe p.1 q.1

/-- Model of `solutions.count_by_country_pipeline`: `$group` on the
`$ifNull` key, then `$sort` by count descending and key ascending
(`int(...)` on the counts is the identity here). -/
def count_by_country_pipeline (col : List MDoc) : List (BVal × Nat) :=
  sortOrd pipeSortLe (col.foldl (fun m d => bump m (pipeGroupKey d)) [])

/-- The country-to-count mapping denoted by either result: total count
recorded for key `k` (for the unique-key lists both functions produce this
is the entry's count, and it is invariant under the pipeline's sort). -/
def mappingOf (l : List (BVal × Nat)) (k : BVal) : Nat :=
  ((l.filter (fun p => p.1 = k)).map (fun p => p.2)).sum

/-- A document's country value is `regular` when it is absent, null, or
truthy — i.e. not one of the falsy-but-non-null values (such as `""`) on
which the two groupings disagree. -/
def countryRegular (d : MDoc) : Bool :=
  match getF d "country" with
  | none => true
  | some v => truthy v || v = .vnull

/-- Field `f` of document `d` currently holds a string (the
`{f: {"$type": "string"}}` filter of `convert_date_fields`). -/
def isStrF (d : MDoc) (f : String) : Bool :=
  match getF d f with
  | some (.vstr _) => true
  | _ => false

/-- New value written by `convert_date_fields`:
`parse_date_maybe(d.get(f))` stored back, a BSON datetime or null. -/
def parsedBVal (v : BVal) : BVal :=
  match parse_date_maybe v with
  | some d => .vdate d
  | none => .vnull

/-- Model of `col.update_one({"_id": i}, {"$set": {f: v}})`: rewrites the
first document with the given id, reporting `modified_count` (1 when the
document actually changed). -/
def update_one_id (col : List MDoc) (i : Nat) (f : String) (v : BVal) : List MDoc × Nat :=
  match col with
  | [] => ([], 0)
  | d :: t =>
    if d.id = i then
      let d2 := setF d f v
      (d2 :: t, if d2 = d then 0 else 1)
    else
      let r := update_one_id t i f v
      (d :: r.1, r.2)

/-- Per-snapshot-document update loop of `convert_date_fields` for one
field: each document the cursor matched is rewritten through
`parse_date_maybe` by `_id`. -/
def cfGo (f : String) (st : List MDoc) : List MDoc → List MDoc × Nat
  | [] => (st, 0)
  | m :: ms =>
    let r := update_one_id st m.id f (parsedBVal ((getF m f).getD .vnull))
    let rest := cfGo f r.1 ms
    (rest.1, r.2 + rest.2)

/-- One-field pass of `convert_date_fields`: find the documents whose field
is a string (cursor snapshot), then update each by `_id`. -/
def convertField (col : List MDoc) (f : String) : List MDoc × Nat :=
  cfGo f col (col.filter (fun d => isStrF d f))

/-- Model of `solutions.convert_date_fields`: iterate the field list,
summing `modified_count` over all per-document updates. -/
def convert_date_fields (col : List MDoc) : List String → List MDoc × Nat
  | [] => (col, 0)
  | f :: fs =>
    let r := convertField col f
    let rest := convert_date_fields r.1 fs
    (rest.1, r.2 + rest.2)

/-- Value of an Open Library `type` field: a string, a dict with an
optional `key` entry, or something else. -/
inductive TypeVal where
  | tstr (s : String)
  | tdict (key : Option String)
  | tother
deriving DecidableEq, Repr

/-- The inner `{"key": ...}` object of a work's author reference. -/
structure AuthorObj where
  key : Option String
deriving DecidableEq, Repr

/-- One entry of a work record's `authors` list:
`{"author": {"key": ...}}` with every layer optional. -/
structure AuthorRef where
  author : Option AuthorObj
deriving DecidableEq, Repr

/-- An Open Library dump record (a decoded JSON object).  Only the fields
the two ingestion scripts read are modelled; an absent field is `none`.
Non-dict records, which both scripts skip, are represented at the stream
level (`Option OLRec`) where the distinction matters. -/
structure OLRec where
  type : Option TypeVal := none
  key : Option String := none
  title : Option String := none
  authors : Option (List AuthorRef) := none
  subjects : Option (List String) := none
  name : Option String := none
  personal_name : Option String := none
  first_publish_date : Option BVal := none
deriving DecidableEq, Repr

/-- Character-list `startsWith` (kernel-reducible form of `str.startswith`). -/
def strStarts (s pre : String) : Bool :=
  pre.toList.isPrefixOf s.toList

/-- Strip a leading `/type/` namespace tag. -/
def stripTypeTag (s : String) : String :=
  if strStarts s "/type/" then String.mk (s.toList.drop 6) else s

/-- Model of `_normalize_type`: accept a bare string or a dict's `key`
entry (when it is a string), stripping the `/type/` tag. -/
def normalizeType : Option TypeVal → Option String
  | none => none
  | some (.tstr s) => some (stripTypeTag s)
  | some (.tdict (some k)) => some (stripTypeTag k)
  | some (.tdict none) => none
  | some .tother => none

/-- Model of `_is_type`: the normalized `type` equals the expected name, or
the record's `key` (with `None` read as `""`) carries the matching
namespace tag as a fallback signal. -/
def isType (r : OLRec) (expected : String) : Bool :=
  normalizeType r.type = some expected ||
  (let k := r.key.getD ""
   (expected = "author" && strStarts k "/authors/") ||
   (expected = "work" && strStarts k "/works/"))

/-- Python truthiness of an optional `int` limit argument (`None` and `0`
are falsy and disable the limit check). -/
def limTruthy : Option Int → Bool
  | none => false
  | some z => z ≠ 0

/-- The `if limit and i >= limit: break` guard with `i` the 0-based index
of the current record. -/
def breakAt (limit : Option Int) (i : Nat) : Bool :=
  match limit with
  | none => false
  | some z => z ≠ 0 && z ≤ (i : Int)

/-- Extract the author-record entry added by `build_authors_map`:
a record must pass `_is_type(rec, "author")`, have a truthy `key`, and a
name (the `name` field, falling back to `personal_name`, both through
`or`, so empty strings fall through). -/
def authorEntry (r : OLRec) : Option (String × String) :=
  if ¬ isType r "author" then none
  else match r.key with
    | none => none
    | some k =>
      if k = "" then none
      else
        let nm : Option String :=
          match r.name with
          | some n => if n ≠ "" then some n else
              (match r.personal_name with
               | some p => if p ≠ "" then some p else none
               | none => none)
          | none =>
              (match r.personal_name with
               | some p => if p ≠ "" then some p else none
               | none => none)
        match nm with
        | some n => some (k, n)
        | none => none

/-- Fold one record into the authors map (dict assignment,
last-write-wins). -/
def bamStep (m : List (String × String)) (r : OLRec) : List (String × String) :=
  match authorEntry r with
  | some e => dset m e.1 e.2
  | none => m

/-- Scan loop of `build_authors_map` with the
`if scan_limit and i >= scan_limit: break` guard. -/
def bamGo (limit : Option Int) : Nat → List (String × String) → List OLRec → List (String × String)
  | _, m, [] => m
  | i, m, r :: rs => if breakAt limit i then m else bamGo limit (i + 1) (bamStep m r) rs

/-- Model of `build_authors_map` from `ingest_openlibrary_dump.py`: the
input list is the record stream produced by `iter_records`. -/
def build_authors_map (records : List OLRec) (scan_limit : Option Int) : List (String × String) :=
  bamGo scan_limit 0 [] records

/-- Limit-free reference scan: a plain fold over every record. -/
def bamAll (records : List OLRec) : List (String × String) :=
  records.foldl bamStep []

/-- Resolved author display names of a work record:
`(a.get("author") or {}).get("key")` for each entry of
`rec.get("authors", []) or []`, kept when the key is truthy and present in
the authors map. -/
def resolveNames (m : List (String × String)) (r : OLRec) : List String :=
  (r.authors.getD []).filterMap (fun a =>
    match a.author with
    | none => none
    | some o =>
      match o.key with
      | none => none
      | some k => if k = "" then none else alookup m k)

/-- Canonical works-dump document shape `{key, title, authors, subjects}`. -/
structure WDoc where
  key : Option String
  title : Option String
  authors : List String
  subjects : List String
deriving DecidableEq, Repr

/-- The document `ingest_works` builds for a kept record (note: no title
check appears in the source; `title` is stored as retrieved). -/
def mkWorkDoc (r : OLRec) (names : List String) : WDoc :=
  { key := r.key, title := r.title, authors := names, subjects := r.subjects.getD [] }

/-- Does `ingest_works` keep this record?  It must pass the work type test
and resolve at least one author name. -/
def iwKeeps (m : List (String × String)) (r : OLRec) : Bool :=
  isType r "work" && resolveNames m r ≠ []

/-- Main loop of `ingest_works`, recording the sequence of documents
appended to batches (everything the store persists when inserts succeed),
with the `if limit and i >= limit: break` guard. -/
def iwGo (m : List (String × String)) (limit : Option Int) : Nat → List OLRec → List WDoc
  | _, [] => []
  | i, r :: rs =>
    if breakAt limit i then []
    else if iwKeeps m r then mkWorkDoc r (resolveNames m r) :: iwGo m limit (i + 1) rs
    else iwGo m limit (i + 1) rs

/-- Documents emitted (batched and, under successful inserts, persisted) by
`ingest_works` on a record stream. -/
def ingest_works_docs (records : List OLRec) (m : List (String × String))
    (limit : Option Int) : List WDoc :=
  iwGo m limit 0 records

/-- Limit-free reference version of the `ingest_works` document stream. -/
def iwAll (records : List OLRec) (m : List (String × String)) : List WDoc :=
  records.filterMap (fun r =>
    if iwKeeps m r then some (mkWorkDoc r (resolveNames m r)) else none)

/-- Outcome the store reports for one bulk insert: full success, or a
`BulkWriteError` whose `details` carry an optional `nInserted` count. -/
inductive InsRes where
  | ok
  | bwerr (nInserted : Option Int)
deriving DecidableEq, Repr

/-- Model of `_insert_batch` from `ingest_openlibrary_dump.py`: on success
count `len(res.inserted_ids)` (the whole batch); on `BulkWriteError` count
`int(details.get("nInserted") or 0)` and swallow the exception. -/
def _insert_batch (o : InsRes) (batch : List WDoc) : Int :=
  match o with
  | .ok => (batch.length : Int)
  | .bwerr n => n.getD 0

/-- Full `ingest_works` loop with batching: `i` is the record index, `fi`
counts flushes (indexing the per-flush store outcome), `batch` the pending
documents; returns the total inserted count.  A flush happens when the
batch reaches `batch_size`, and a final non-empty batch is flushed after
the stream ends. -/
def iwRunGo (m : List (String × String)) (limit : Option Int) (bs : Nat)
    (oracle : Nat → InsRes) : Nat → List WDoc → Nat → List OLRec → Int
  | _, batch, fi, [] => if batch ≠ [] then _insert_batch (oracle fi) batch else 0
  | i, batch, fi, r :: rs =>
    if breakAt limit i then (if batch ≠ [] then _insert_batch (oracle fi) batch else 0)
    else if iwKeeps m r then
      let batch2 := batch ++ [mkWorkDoc r (resolveNames m r)]
      if bs ≤ batch2.length then
        _insert_batch (oracle fi) batch2 + iwRunGo m limit bs oracle (i + 1) [] (fi + 1) rs
      else iwRunGo m limit bs oracle (i + 1) batch2 fi rs
    else iwRunGo m limit bs oracle (i + 1) batch fi rs

/-- Model of `ingest_works`: total inserted count under a given per-flush
store outcome assignment. -/
def ingest_works_run (records : List OLRec) (m : List (String × String))
    (limit : Option Int) (bs : Nat) (oracle : Nat → InsRes) : Int :=
  iwRunGo m limit bs oracle 0 [] 0 records

/-- Greedy chunking of a document stream into batches of `bs` (the final
chunk may be smaller); `bs = 0` is never used under the theorems'
`1 ≤ bs` hypothesis. -/
def chunkB {α : Type} (bs : Nat) : List α → List (List α)
  | [] => []
  | x :: xs =>
    if bs = 0 then [x :: xs]
    else (x :: xs.take (bs - 1)) :: chunkB bs (xs.drop (bs - 1))
termination_by l => l.length
decreasing_by
  simp only [List.length_drop, List.length_cons]
  omega

/-- Sum of store-reported insert counts over a flush sequence, flushing
chunk `j` with outcome `oracle (fi + j)`. -/
def sumFlushes (oracle : Nat → InsRes) : Nat → List (List WDoc) → Int
  | _, [] => 0
  | fi, c :: cs => _insert_batch (oracle fi) c + sumFlushes oracle (fi + 1) cs

/-- Whitespace-token split of `full.strip().split()` (runs of whitespace,
empty tokens dropped). -/
def pyTokens (full : String) : List String :=
  ((pyStrip full.toList).splitOnP isPySpace).map String.mk |>.filter (fun t => t ≠ "")

/-- Model of `split_name` from `ingest_openlibrary.py`: falsy input gives
`(None, None)`; a single token becomes the first name with no last name;
otherwise all but the last token joined by spaces are the first name and
the final token the last name.  (A whitespace-only input makes the Python
code raise an `IndexError`; that unreachable-in-context case is modelled as
`(none, none)` and no theorem depends on it.) -/
def split_name (full : String) : Option String × Option String :=
  if full = "" then (none, none)
  else
    match pyTokens full with
    | [] => (none, none)
    | [t] => (some t, none)
    | t :: t2 :: rest =>
      ((t :: t2 :: rest).dropLast.foldr
          (fun a b => if b = "" then a else a ++ " " ++ b) "" |> some,
        (t :: t2 :: rest).getLast?)

/-- One parsed-record step of the legacy authors scan. -/
def lamStep (m : List (String × (Option String × Option String))) (r : OLRec) :
    List (String × (Option String × Option String)) :=
  match r.key, r.name with
  | some k, some nm => if k ≠ "" && nm ≠ "" then dset m k (split_name nm) else m
  | _, _ => m

/-- Scan loop of `load_authors_map` (legacy script): `count` increments
only for successfully parsed, truthy records (`if not obj: continue` skips
the rest without counting), the map entry requires truthy `key` and
truthy `name` (no `personal_name` fallback here), and the
`if limit and count >= limit: break` check runs after processing. -/
def lamGo (limit : Option Int) :
    Nat → List (String × (Option String × Option String)) → List (Option OLRec) →
    List (String × (Option String × Option String))
  | _, m, [] => m
  | count, m, none :: rest => lamGo limit count m rest
  | count, m, some r :: rest =>
    let m2 := lamStep m r
    if breakAt limit (count + 1) then m2
    else lamGo limit (count + 1) m2 rest

/-- Model of `load_authors_map`: the stream is the per-line result of
`parse_dump_line` (`none` for lines that fail to parse or parse falsy). -/
def load_authors_map (recs : List (Option OLRec)) (limit : Option Int) :
    List (String × (Option String × Option String)) :=
  lamGo limit 0 [] recs

/-- Limit-free reference version of the legacy authors scan. -/
def lamAll (recs : List (Option OLRec)) : List (String × (Option String × Option String)) :=
  recs.foldl (fun m o => match o with | some r => lamStep m r | none => m) []

/-- Prefix of a stream through its `n`-th parsed record (through the first
parsed record when `n = 0`, matching the `count >= limit` check for a
negative limit whose truthiness fires at `count = 1`). -/
def takeParsed {α : Type} : Nat → List (Option α) → List (Option α)
  | _, [] => []
  | n, none :: t => none :: takeParsed n t
  | n, some r :: t => if n ≤ 1 then [some r] else some r :: takeParsed (n - 1) t

/-- Model of `iter_works` (legacy script): yields each parsed record, then
stops once `count` reaches a truthy limit. -/
def iter_works (limit : Option Int) : Nat → List (Option OLRec) → List OLRec
  | _, [] => []
  | count, none :: rest => iter_works limit count rest
  | count, some r :: rest =>
    r :: (if breakAt limit (count + 1) then []
          else iter_works limit (count + 1) rest)

/-- Canonical legacy book document
`{title, author_first_name, author_last_name, country, published_date,
out_of_print_date, _source}`. -/
structure BookDoc where
  title : Option String
  author_first_name : Option String
  author_last_name : Option String
  country : String
  published_date : Option DT
  out_of_print_date : Option DT
  _source : String
deriving DecidableEq, Repr

/-- The author-key loop of `to_book_doc`: walk the reference list and take
the first entry whose `author` dict has a truthy `key`, then `break` —
later references are never examined. -/
def firstAkey : List AuthorRef → Option String
  | [] => none
  | a :: rest =>
    match a.author with
    | some o =>
      match o.key with
      | some k => if k ≠ "" then some k else firstAkey rest
      | none => firstAkey rest
    | none => firstAkey rest

/-- Key extracted from one author reference when truthy (shared helper for
stating which references bear keys at all). -/
def refKey (a : AuthorRef) : Option String :=
  match a.author with
  | some o =>
    match o.key with
    | some k => if k ≠ "" then some k else none
    | none => none
  | none => none

/-- Model of `to_book_doc` from `ingest_openlibrary.py`: first key-bearing
author reference looked up in the split-name map, country always
`"Unknown"`, published date from `first_publish_date` via
`parse_date_maybe`. -/
def to_book_doc (r : OLRec) (m : List (String × (Option String × Option String))) : BookDoc :=
  let akey := firstAkey (r.authors.getD [])
  let fl :=
    match akey with
    | some k => (alookup m k).getD (none, none)
    | none => (none, none)
  { title := r.title,
    author_first_name := fl.1,
    author_last_name := fl.2,
    country := "Unknown",
    published_date := parse_date_maybe (r.first_publish_date.getD .vnull),
    out_of_print_date := none,
    _source := "openlibrary_works" }

/-- Python truthiness of the optional title (`if not doc.get("title")`). -/
def titleTruthy : Option String → Bool
  | none => false
  | some s => s ≠ ""

/-- Documents the legacy main loop appends to `ops` (and hence inserts when
the bulk writes succeed): every yielded work mapped through `to_book_doc`,
kept when the resulting title is truthy.  No author-resolution check
appears in the source. -/
def legacy_kept_docs (recs : List (Option OLRec))
    (m : List (String × (Option String × Option String))) (limit : Option Int) : List BookDoc :=
  ((iter_works limit 0 recs).map (fun w => to_book_doc w m)).filter
    (fun b => titleTruthy b.title)

/-- Model of `col.bulk_write(ops, ordered=False)`: success, or a raised
`BulkWriteError` (the legacy script has no handler for it). -/
def bulk_write (o : InsRes) : Except (Option Int) Unit :=
  match o with
  | .ok => .ok ()
  | .bwerr n => .error n

/-- Legacy main insert loop over the yielded works: accumulate `ops`, flush
with `bulk_write` at `batch` size, add `len(ops)` on success, and let a
`BulkWriteError` propagate (aborting the run). -/
def legacyGo (m : List (String × (Option String × Option String))) (bs : Nat)
    (oracle : Nat → InsRes) : List BookDoc → Int → Nat → List OLRec → Except (Option Int) Int
  | ops, ins, fi, [] =>
    if ops ≠ [] then
      match bulk_write (oracle fi) with
      | .ok _ => .ok (ins + ops.length)
      | .error e => .error e
    else .ok ins
  | ops, ins, fi, w :: ws =>
    let doc := to_book_doc w m
    if ¬ titleTruthy doc.title then legacyGo m bs oracle ops ins fi ws
    else
      let ops2 := ops ++ [doc]
      if bs ≤ ops2.length then
        match bulk_write (oracle fi) with
        | .ok _ => legacyGo m bs oracle [] (ins + ops2.length) (fi + 1) ws
        | .error e => .error e
      else legacyGo m bs oracle ops2 ins fi ws

/-- Model of the legacy `main` insert phase: abort with the error on a
partial bulk-write failure, otherwise the total count of `len(ops)` sums. -/
def legacy_run (recs : List (Option OLRec))
    (m : List (String × (Option String × Option String))) (limit : Option Int)
    (bs : Nat) (oracle : Nat → InsRes) : Except (Option Int) Int :=
  legacyGo m bs oracle [] 0 0 (iter_works limit 0 recs)

/-- Chunk-wise reference behaviour of the legacy loop: process batches in
order, aborting at the first failed bulk write, otherwise summing full
batch lengths. -/
def legacyChunks (oracle : Nat → InsRes) : Nat → List (List BookDoc) → Except (Option Int) Int
  | _, [] => .ok 0
  | fi, c :: cs =>
    match bulk_write (oracle fi) with
    | .ok _ =>
      match legacyChunks oracle (fi + 1) cs with
      | .ok n => .ok (c.length + n)
      | .error e => .error e
    | .error e => .error e

/-- Detection mode of `detect_record_parser` (source name ends in a word
this file cannot use): whole-line JSON, or TSV with JSON in the last
column. -/
inductive PMode where
  | jsonM
  | tsvM
deriving DecidableEq, Repr

/-- Model of Python `line.split("\\t")` on a character list: split at every
tab, keeping empty parts. -/
def splitTabs (cs : List Char) : List (List Char) :=
  match cs with
  | [] => [[]]
  | c :: t =>
    let r := splitTabs t
    if c = '\t' then [] :: r
    else
      match r with
      | [] => [[c]]
      | p :: ps => (c :: p) :: ps

/-- Sampling loop of `detect_record_parser` from
`ingest_openlibrary_dump.py`, parameterized by a JSON-parse oracle `jp`
(true when `_try_parse_json` succeeds on the string): sample up to
`sample` raw lines, strip each, skip blanks, count whole-line parses as
json hits, otherwise count tab-split last-column parses as tsv hits;
returns `(json_hits, tsv_hits)`. -/
def detectCounts (jp : String → Bool) (lines : List String) (sample : Nat) : Nat × Nat :=
  (lines.take sample).foldl
    (fun (acc : Nat × Nat) line =>
      let l := pyStrip line.toList
      if l = [] then acc
      else if jp (String.mk l) then (acc.1 + 1, acc.2)
      else if l.contains '\t' then
        if jp (String.mk ((splitTabs l).getLast?.getD [])) then (acc.1, acc.2 + 1) else acc
      else acc)
    (0, 0)

/-- Final mode decision of the detector on the sampled counts. -/
def detect_record_mode (jp : String → Bool) (lines : List String) (sample : Nat) :
    PMode × Nat × Nat :=
  let counts := detectCounts jp lines sample
  if counts.2 > 0 && counts.2 ≥ counts.1 then (.tsvM, counts.1, counts.2)
  else (.jsonM, counts.1, counts.2)

/-- Helper: a false `isSome` means the option is `none`. -/
theorem isSome_false {α : Type} {o : Option α} (h : o.isSome = false) : o = none := by
  cases o <;> simp at h ⊢

/-- Claim C4, counterexample: the input `"5"` is not the empty string and
matches none of the formats the claim lists (it is not a bare 4-digit
year, no separator format, and not ISO-8601), yet `parse_date_maybe` does
not return null: the `"%Y"` branch executes `datetime(int("5"), 1, 1)` and
returns year 5. -/
theorem c4_counterexample :
    recognizedSpec "5".toList = false ∧
    pyStrip (pyStr (.vstr "5")).toList ≠ [] ∧
    parse_date_maybe (.vstr "5") = some { year := 5, month := 1, day := 1 } :=
  ⟨by decide, by decide, by decide⟩

/-- Claim C4 as amended: for every non-null, non-datetime input whose
trimmed string form is empty or is recognized by none of the code's
formats — the six separator formats, the integer-year branch
(`datetime(int(s), 1, 1)`, which accepts any int-parseable value 1..9999,
not only 4-digit years), or the ISO-8601 fallback — `parse_date_maybe`
returns null; the function never raises (the model is total by
construction, every parse failure being turned into `none`). -/
theorem c4_unrecognized_gives_none (v : BVal) (h1 : v ≠ .vnull)
    (h2 : ∀ d, v ≠ .vdate d)
    (h3 : pyStrip (pyStr v).toList = [] ∨
      recognizedAmended (pyStrip (pyStr v).toList) = false) :
    parse_date_maybe v = none := by
  have key : ∀ cs : List Char, (cs = [] ∨ recognizedAmended cs = false) →
      (if cs = [] then none
       else
         match tryFormats cs with
         | some d => some d
         | none => pyFromIso cs) = (none : Option DT) := by
    intro cs h
    rcases h with h | h
    · simp [h]
    · by_cases hc : cs = []
      · simp [hc]
      · unfold recognizedAmended at h
        rw [Bool.or_eq_false_iff] at h
        have hT := isSome_false h.1
        have hI := isSome_false h.2
        simp [hc, hT, hI]
  cases v with
  | vnull => exact absurd rfl h1
  | vdate d => exact absurd rfl (h2 d)
  | vstr s => exact key _ h3
  | vint n => exact key _ h3
  | vbool b => exact key _ h3

/-- Witness for C4's theorem at the concrete unrecognized input "hello". -/
theorem c4_witness :
    recognizedAmended (pyStrip (pyStr (.vstr "hello")).toList) = false ∧
    parse_date_maybe (.vstr "hello") = none :=
  ⟨by decide,
    c4_unrecognized_gives_none (.vstr "hello") (by simp) (fun d => by simp)
      (Or.inr (by decide))⟩

/-- Claim C5: for every JSON-parse oracle, line list and sample bound, the
detector chooses tsv mode exactly when the sampled `tsv_hits` is positive
and at least `json_hits` (so an equal positive tie yields tsv mode), and
chooses json mode otherwise. -/
theorem c5_mode_decision (jp : String → Bool) (lines : List String) (sample : Nat) :
    (detect_record_mode jp lines sample).1 = .tsvM ↔
      (0 < (detect_record_mode jp lines sample).2.2 ∧
        (detect_record_mode jp lines sample).2.1 ≤ (detect_record_mode jp lines sample).2.2) := by
  unfold detect_record_mode
  cases hC : detectCounts jp lines sample with
  | mk jh th =>
    by_cases h : (th > 0 && th ≥ jh) = true
    · rw [if_pos h]
      simp at h
      simp [h.1, h.2]
    · rw [if_neg h]
      simp at h
      constructor
      · intro hx
        simp at hx
      · intro hx
        have h1 : 0 < th := hx.1
        have h2 : jh ≤ th := hx.2
        exact absurd (h h1) (by omega)

/-- Helper: inserting into a sorted-so-far list is a permutation of
consing. -/
theorem sortIns_perm {α : Type} (le : α → α → Bool) (x : α) (l : List α) :
    (sortIns le x l).Perm (x :: l) := by
  induction l with
  | nil => simp [sortIns]
  | cons y ys ih =>
    simp only [sortIns]
    by_cases h : le y x
    · simp only [h, if_true]
      exact (ih.cons y).trans (List.Perm.swap x y ys)
    · simp [h]

/-- Helper: the stable insertion sort permutes its input. -/
theorem sortOrd_perm {α : Type} (le : α → α → Bool) (l : List α) :
    (sortOrd le l).Perm l := by
  suffices h : ∀ (l acc : List α),
      (List.foldl (fun acc x => sortIns le x acc) acc l).Perm (acc ++ l) by
    simpa using h l []
  intro l
  induction l with
  | nil => simp
  | cons x xs ih =>
    intro acc
    simp only [List.foldl_cons]
    exact (ih _).trans (((sortIns_perm le x acc).append_right xs).trans List.perm_middle.symm)

/-- Helper: the mapping denoted by a cons cell. -/
theorem mappingOf_cons (a : BVal) (b : Nat) (t : List (BVal × Nat)) (k : BVal) :
    mappingOf ((a, b) :: t) k = (if a = k then b else 0) + mappingOf t k := by
  by_cases h : a = k <;> simp [mappingOf, List.filter_cons, h]

/-- Helper: `bump` adds exactly one to the bumped key's mapping. -/
theorem mappingOf_bump (m : List (BVal × Nat)) (k0 k : BVal) :
    mappingOf (bump m k0) k = mappingOf m k + (if k0 = k then 1 else 0) := by
  induction m with
  | nil =>
    by_cases h : k0 = k <;> simp [bump, mappingOf, List.filter_cons, h]
  | cons p t ih =>
    obtain ⟨k1, n⟩ := p
    simp only [bump]
    by_cases h1 : k1 = k0
    · subst h1
      rw [if_pos rfl]
      rw [mappingOf_cons, mappingOf_cons]
      by_cases h2 : k1 = k
      · simp [h2]
        omega
      · simp [h2]
    · rw [if_neg h1]
      rw [mappingOf_cons, mappingOf_cons, ih]
      omega

/-- Helper: folding `bump` over documents counts key matches. -/
theorem mappingOf_foldl_bump (keyf : MDoc → BVal) (docs : List MDoc) :
    ∀ (m : List (BVal × Nat)) (k : BVal),
      mappingOf (docs.foldl (fun m d => bump m (keyf d)) m) k =
        mappingOf m k + docs.countP (fun d => keyf d = k) := by
  induction docs with
  | nil => simp
  | cons d ds ih =>
    intro m k
    simp only [List.foldl_cons, List.countP_cons]
    rw [ih, mappingOf_bump]
    by_cases h : keyf d = k
    · simp [h]
      omega
    · simp [h]

/-- Helper: the mapping is invariant under permutation of the entry list. -/
theorem mappingOf_perm {l1 l2 : List (BVal × Nat)} (h : l1.Perm l2) (k : BVal) :
    mappingOf l1 k = mappingOf l2 k := by
  unfold mappingOf
  exact ((h.filter _).map _).sum_eq

/-- Helper: on a country-regular document the two grouping keys agree. -/
theorem groupKey_agree (d : MDoc) (h : countryRegular d = true) :
    pyGroupKey d = pipeGroupKey d := by
  unfold countryRegular at h
  unfold pyGroupKey pipeGroupKey
  cases hg : getF d "country" with
  | none => rfl
  | some v =>
    rw [hg] at h
    cases v with
    | vnull => rfl
    | vstr s =>
      rcases Bool.or_eq_true_iff.mp h with ht | he
      · simp [ht]
      · simp at he
    | vint n =>
      rcases Bool.or_eq_true_iff.mp h with ht | he
      · simp [ht]
      · simp at he
    | vbool b =>
      rcases Bool.or_eq_true_iff.mp h with ht | he
      · simp [ht]
      · simp at he
    | vdate dd => simp [truthy]

/-- Claim C2, counterexample: on the single-document collection whose
`country` field holds the empty string, the python grouping folds `""`
(falsy) into `"Unknown"` while the pipeline's `$ifNull` keeps `""`, so
the two results are different mappings: `"Unknown"` has count 1 versus 0
and `""` has count 0 versus 1. -/
theorem c2_counterexample :
    mappingOf (count_by_country_python [{ id := 0, fields := [("country", .vstr "")] }])
        (.vstr "Unknown") = 1 ∧
    mappingOf (count_by_country_pipeline [{ id := 0, fields := [("country", .vstr "")] }])
        (.vstr "Unknown") = 0 ∧
    mappingOf (count_by_country_python [{ id := 0, fields := [("country", .vstr "")] }])
        (.vstr "") = 0 ∧
    mappingOf (count_by_country_pipeline [{ id := 0, fields := [("country", .vstr "")] }])
        (.vstr "") = 1 :=
  ⟨by decide, by decide, by decide, by decide⟩

/-- Claim C2 as amended: for every collection state in which no document
holds a falsy non-null `country` value (such as the empty string) — i.e.
every country field is absent, null, or truthy — the in-process grouping
and the store-side aggregation yield identical country-to-count mappings:
the count recorded for every key agrees, so no country appears in one
result and not the other.  (Missing and null are folded into `"Unknown"`
by both; the python version additionally folds all other falsy values,
which is where the unrestricted claim fails.) -/
theorem c2_groupings_agree (col : List MDoc)
    (h : ∀ d ∈ col, countryRegular d = true) (k : BVal) :
    mappingOf (count_by_country_python col) k =
      mappingOf (count_by_country_pipeline col) k := by
  unfold count_by_country_python count_by_country_pipeline
  rw [mappingOf_perm (sortOrd_perm _ _) k]
  rw [mappingOf_foldl_bump, mappingOf_foldl_bump]
  congr 1
  refine List.countP_congr ?_
  intro d hd
  have := groupKey_agree d (h d hd)
  simp [this]

/-- Witness for C2's theorem on a concrete regular collection. -/
theorem c2_witness :
    (∀ d ∈ [({ id := 0, fields := [("country", .vstr "UK")] } : MDoc),
            { id := 1, fields := [("country", .vnull)] },
            { id := 2, fields := [] }], countryRegular d = true) ∧
    mappingOf (count_by_country_python
        [{ id := 0, fields := [("country", .vstr "UK")] },
         { id := 1, fields := [("country", .vnull)] },
         { id := 2, fields := [] }]) (.vstr "Unknown") =
      mappingOf (count_by_country_pipeline
        [{ id := 0, fields := [("country", .vstr "UK")] },
         { id := 1, fields := [("country", .vnull)] },
         { id := 2, fields := [] }]) (.vstr "Unknown") :=
  ⟨by decide,
    c2_groupings_agree _ (by decide) (.vstr "Unknown")⟩

/-- Helper: `lexLe` is total. -/
theorem lexLe_total (a : List Char) : ∀ b, lexLe a b = true ∨ lexLe b a = true := by
  induction a with
  | nil => intro b; left; rfl
  | cons x xs ih =>
    intro b
    cases b with
    | nil => right; rfl
    | cons y ys =>
      by_cases h1 : x.toNat < y.toNat
      · left; simp [lexLe, h1]
      · by_cases h2 : y.toNat < x.toNat
        · right; simp [lexLe, h2]
        · rcases ih ys with h | h
          · left; simp [lexLe, h1, h2, h]
          · right; simp [lexLe, h1, h2, h]

/-- Helper: `lexLe` is transitive. -/
theorem lexLe_trans : ∀ a b c : List Char,
    lexLe a b = true → lexLe b c = true → lexLe a c = true := by
  intro a
  induction a with
  | nil => intro b c _ _; rfl
  | cons x xs ih =>
    intro b c h1 h2
    cases b with
    | nil => simp [lexLe] at h1
    | cons y ys =>
      cases c with
      | nil => simp [lexLe] at h2
      | cons z zs =>
        simp only [lexLe] at h1 h2 ⊢
        by_cases hxy : x.toNat < y.toNat
        · by_cases hyz : y.toNat < z.toNat
          · have : x.toNat < z.toNat := by omega
            simp [this]
          · by_cases hzy : z.toNat < y.toNat
            · simp [hxy, hyz, hzy] at h2
            · have : x.toNat < z.toNat := by omega
              simp [this]
        · by_cases hyx : y.toNat < x.toNat
          · simp [hxy, hyx] at h1
          · by_cases hyz : y.toNat < z.toNat
            · have : x.toNat < z.toNat := by omega
              simp [this]
            · by_cases hzy : z.toNat < y.toNat
              · simp [hyz, hzy] at h2
              · have hxz : ¬ x.toNat < z.toNat := by omega
                have hzx : ¬ z.toNat < x.toNat := by omega
                rw [if_neg hxy, if_neg hyx] at h1
                rw [if_neg hyz, if_neg hzy] at h2
                rw [if_neg hxz, if_neg hzx]
                exact ih ys zs h1 h2

/-- Helper: inserting into a sorted list keeps it sorted, for a transitive
total boolean order. -/
theorem sortIns_sorted {α : Type} (le : α → α → Bool)
    (htrans : ∀ a b c, le a b = true → le b c = true → le a c = true)
    (htot : ∀ a b, le a b = true ∨ le b a = true)
    (x : α) (l : List α) (h : l.Pairwise (fun a b => le a b = true)) :
    (sortIns le x l).Pairwise (fun a b => le a b = true) := by
  induction l with
  | nil => simp [sortIns]
  | cons y ys ih =>
    cases h with
    | cons hy hys =>
      simp only [sortIns]
      by_cases hle : le y x
      · rw [if_pos hle]
        refine List.Pairwise.cons ?_ (ih hys)
        intro z hz
        have hz2 : z ∈ x :: ys := (sortIns_perm le x ys).mem_iff.mp hz
        rcases List.mem_cons.mp hz2 with rfl | hz3
        · exact hle
        · exact hy z hz3
      · rw [if_neg hle]
        have hxy : le x y = true := by
          rcases htot x y with h | h
          · exact h
          · exact absurd h hle
        refine List.Pairwise.cons ?_ (List.Pairwise.cons hy hys)
        intro z hz
        rcases List.mem_cons.mp hz with rfl | hz2
        · exact hxy
        · exact htrans x y z hxy (hy z hz2)

/-- Helper: the stable insertion sort produces a sorted list. -/
theorem sortOrd_sorted {α : Type} (le : α → α → Bool)
    (htrans : ∀ a b c, le a b = true → le b c = true → le a c = true)
    (htot : ∀ a b, le a b = true ∨ le b a = true)
    (l : List α) : (sortOrd le l).Pairwise (fun a b => le a b = true) := by
  suffices h : ∀ (l acc : List α), acc.Pairwise (fun a b => le a b = true) →
      (List.foldl (fun acc x => sortIns le x acc) acc l).Pairwise (fun a b => le a b = true) by
    exact h l [] (by simp)
  intro l
  induction l with
  | nil => intro acc h; simpa using h
  | cons x xs ih =>
    intro acc h
    simp only [List.foldl_cons]
    exact ih _ (sortIns_sorted le htrans htot x acc h)

/-- Helper: first-occurrence deduplication yields a duplicate-free list. -/
theorem dedupKeepFirst_nodup (l : List BVal) : (dedupKeepFirst l).Nodup := by
  suffices h : ∀ (l acc : List BVal), acc.Nodup →
      (List.foldl (fun acc v => if v ∈ acc then acc else acc ++ [v]) acc l).Nodup by
    exact h l [] (by simp)
  intro l
  induction l with
  | nil => intro acc h; simpa using h
  | cons v vs ih =>
    intro acc h
    simp only [List.foldl_cons]
    by_cases hv : v ∈ acc
    · rw [if_pos hv]; exact ih _ h
    · rw [if_neg hv]
      refine ih _ (List.nodup_append.mpr ⟨h, by simp, ?_⟩)
      intro a ha hb
      simp at hb
      subst hb
      exact hv ha

/-- Claim C6, counterexample: on a collection containing first names
`"Alice"` and `"ALICE"`, which differ only in letter case, the function
returns both — `distinct` deduplicates by exact value and only the sort
key is lowercased, so the result is not case-insensitively deduplicated. -/
theorem c6_counterexample :
    unique_author_first_names
        [{ id := 0, fields := [("author_first_name", .vstr "Alice")] },
         { id := 1, fields := [("author_first_name", .vstr "ALICE")] }] =
      .ok [.vstr "Alice", .vstr "ALICE"] ∧
    lowKey (.vstr "Alice") = lowKey (.vstr "ALICE") ∧
    (BVal.vstr "Alice") ≠ .vstr "ALICE" :=
  ⟨rfl, by decide, by decide⟩

/-- Claim C6 as amended: for every collection state whose distinct
author-first-name values are all strings or null (Python raises on other
types), the function returns a list that contains no null and no empty
value, is sorted ascending by the values' lowercase forms, and is
deduplicated by exact value — values differing only in letter case are
each retained (the deduplication is not case-insensitive). -/
theorem c6_unique_first_names (col : List MDoc)
    (h : ∀ v ∈ mdistinct col "author_first_name", isStrB v = true ∨ v = .vnull) :
    ∃ l, unique_author_first_names col = .ok l ∧
      (.vnull ∉ l) ∧ ((BVal.vstr "") ∉ l) ∧
      l.Pairwise (fun a b => lexLe (lowKey a) (lowKey b) = true) ∧
      l.Nodup := by
  unfold unique_author_first_names
  have hall : ((mdistinct col "author_first_name").filter
      (fun v => !(v = .vnull || v = .vstr ""))).all isStrB = true := by
    rw [List.all_eq_true]
    intro v hv
    have hm := List.mem_filter.mp hv
    rcases h v hm.1 with hs | hn
    · exact hs
    · subst hn
      simp at hm
  rw [if_pos hall]
  refine ⟨_, rfl, ?_, ?_, ?_, ?_⟩
  · intro hmem
    have := (sortOrd_perm _ _).mem_iff.mp hmem
    have := (List.mem_filter.mp this).2
    simp at this
  · intro hmem
    have := (sortOrd_perm _ _).mem_iff.mp hmem
    have := (List.mem_filter.mp this).2
    simp at this
  · exact sortOrd_sorted _
      (fun a b c => lexLe_trans (lowKey a) (lowKey b) (lowKey c))
      (fun a b => lexLe_total (lowKey a) (lowKey b)) _
  · exact ((sortOrd_perm _ _).nodup_iff).mpr
      ((dedupKeepFirst_nodup _).filter _)

/-- Witness for C6's theorem on a concrete collection. -/
theorem c6_witness :
    (∀ v ∈ mdistinct [({ id := 0, fields := [("author_first_name", .vstr "Bob")] } : MDoc),
        { id := 1, fields := [("author_first_name", .vstr "alice")] },
        { id := 2, fields := [("author_first_name", .vnull)] },
        { id := 3, fields := [("author_first_name", .vstr "")] }] "author_first_name",
      isStrB v = true ∨ v = .vnull) ∧
    (∃ l, unique_author_first_names
        [({ id := 0, fields := [("author_first_name", .vstr "Bob")] } : MDoc),
         { id := 1, fields := [("author_first_name", .vstr "alice")] },
         { id := 2, fields := [("author_first_name", .vnull)] },
         { id := 3, fields := [("author_first_name", .vstr "")] }] = .ok l ∧
      (.vnull ∉ l) ∧ ((BVal.vstr "") ∉ l) ∧
      l.Pairwise (fun a b => lexLe (lowKey a) (lowKey b) = true) ∧
      l.Nodup) :=
  ⟨by decide, c6_unique_first_names _ (by decide)⟩

/-- Helper: pointwise evaluation of the deletion filter — it matches the
empty string, the null value, and an absent field. -/
theorem lastNameFilt_eval (d : MDoc) :
    lastNameFilt d =
      (getF d "author_last_name" = some (.vstr "") ||
       getF d "author_last_name" = some .vnull ||
       (getF d "author_last_name").isNone) := by
  unfold lastNameFilt mongoEq mongoNullMatch
  cases hg : getF d "author_last_name" with
  | none => simp [hg]
  | some v => cases v <;> simp [hg]

/-- Claim C9: the delete filter `{"$or": [{f: ""}, {f: None}]}` removes
every document whose `author_last_name` is the empty string, null, or —
because a MongoDB null-equality filter also matches missing fields —
entirely absent; the returned count tallies all three kinds, and in
particular a field-absent document never survives into the resulting
collection state. -/
theorem c9_removes_absent (col : List MDoc) :
    (remove_empty_or_null_author_last_name col).2 =
      col.countP (fun d =>
        getF d "author_last_name" = some (.vstr "") ||
        getF d "author_last_name" = some .vnull ||
        (getF d "author_last_name").isNone) ∧
    (remove_empty_or_null_author_last_name col).1 =
      col.filter (fun d =>
        !(getF d "author_last_name" = some (.vstr "") ||
          getF d "author_last_name" = some .vnull ||
          (getF d "author_last_name").isNone)) ∧
    (∀ d ∈ col, getF d "author_last_name" = none →
      d ∉ (remove_empty_or_null_author_last_name col).1) := by
  refine ⟨?_, ?_, ?_⟩
  · show (col.filter lastNameFilt).length = _
    rw [← List.countP_eq_length_filter]
    exact List.countP_congr (fun d _ => by rw [lastNameFilt_eval])
  · show col.filter (fun d => !lastNameFilt d) = _
    exact List.filter_congr (fun d _ => by rw [lastNameFilt_eval])
  · intro d _ hnone hmem
    have hf := (List.mem_filter.mp hmem).2
    rw [lastNameFilt_eval] at hf
    simp [hnone] at hf

/-- Witness for C9's theorem: a document with no `author_last_name` field
at all is deleted. -/
theorem c9_witness :
    ({ id := 0, fields := [] } : MDoc) ∉
      (remove_empty_or_null_author_last_name [{ id := 0, fields := [] }]).1 :=
  (c9_removes_absent [{ id := 0, fields := [] }]).2.2 _ (by decide) (by decide)

/-- Helper: the `break` loop of `to_book_doc` selects exactly the first
key-bearing author reference. -/
theorem firstAkey_eq_head (l : List AuthorRef) :
    firstAkey l = (l.filterMap refKey).head? := by
  induction l with
  | nil => rfl
  | cons a rest ih =>
    cases ha : a.author with
    | none => simp [firstAkey, List.filterMap_cons, refKey, ha, ih]
    | some o =>
      cases hk : o.key with
      | none => simp [firstAkey, List.filterMap_cons, refKey, ha, hk, ih]
      | some k =>
        by_cases hke : k = ""
        · simp [firstAkey, List.filterMap_cons, refKey, ha, hk, hke, ih]
        · simp [firstAkey, List.filterMap_cons, refKey, ha, hk, hke]

/-- Claim C7 as amended: `to_book_doc` uses the first key-bearing author
reference, not the first map-resolving one: the stored name pair is the
map's split name for that key when present and `(None, None)` otherwise —
even when a later reference would resolve; the country is always the
sentinel `"Unknown"`, the title is taken verbatim, and `published_date` is
the Date Normalizer's result on the record's `first_publish_date` field. -/
theorem c7_to_book_doc (r : OLRec) (m : List (String × (Option String × Option String))) :
    (to_book_doc r m).country = "Unknown" ∧
    (to_book_doc r m).published_date = parse_date_maybe (r.first_publish_date.getD .vnull) ∧
    (to_book_doc r m).title = r.title ∧
    ((to_book_doc r m).author_first_name, (to_book_doc r m).author_last_name) =
      (match ((r.authors.getD []).filterMap refKey).head? with
       | some k => (alookup m k).getD (none, none)
       | none => (none, none)) := by
  refine ⟨rfl, rfl, rfl, ?_⟩
  unfold to_book_doc
  rw [firstAkey_eq_head]

/-- Claim C7, counterexample: a work whose first author reference bears the
key `/authors/A1` (absent from the map) and whose second bears
`/authors/A2` (present, mapping to the split name `("Jane", "Doe")`).  The
earliest reference whose key is present in the authors map is
`/authors/A2`, yet `to_book_doc` stores `(None, None)` — the loop breaks at
the first key-bearing reference and never tries later ones. -/
theorem c7_counterexample :
    ((({ authors := some [{ author := some { key := some "/authors/A1" } },
                          { author := some { key := some "/authors/A2" } }],
         title := some "T" } : OLRec).authors.getD []).filterMap refKey).find?
        (fun k => (alookup [("/authors/A2", (some "Jane", some "Doe"))] k).isSome) =
      some "/authors/A2" ∧
    alookup [("/authors/A2", (some "Jane", some "Doe"))] "/authors/A2" =
      some (some "Jane", some "Doe") ∧
    (to_book_doc
        { authors := some [{ author := some { key := some "/authors/A1" } },
                           { author := some { key := some "/authors/A2" } }],
          title := some "T" }
        [("/authors/A2", (some "Jane", some "Doe"))]).author_first_name = none ∧
    (to_book_doc
        { authors := some [{ author := some { key := some "/authors/A1" } },
                           { author := some { key := some "/authors/A2" } }],
          title := some "T" }
        [("/authors/A2", (some "Jane", some "Doe"))]).author_last_name = none :=
  ⟨by decide, by decide, by decide, by decide⟩

/-- Helper: every document the `ingest_works` loop emits has a non-empty
resolved-authors list (the `if not names: continue` guard). -/
theorem iwGo_authors_nonempty (m : List (String × String)) (limit : Option Int) :
    ∀ (rs : List OLRec) (i : Nat) (d : WDoc), d ∈ iwGo m limit i rs → d.authors ≠ [] := by
  intro rs
  induction rs with
  | nil => intro i d h; simp [iwGo] at h
  | cons r rest ih =>
    intro i d h
    simp only [iwGo] at h
    by_cases hb : breakAt limit i
    · rw [if_pos hb] at h; simp at h
    · rw [if_neg hb] at h
      by_cases hk : iwKeeps m r
      · rw [if_pos hk] at h
        rcases List.mem_cons.mp h with rfl | h2
        · have := hk
          unfold iwKeeps at this
          have h3 := (Bool.and_eq_true_iff.mp this).2
          simpa [mkWorkDoc] using h3
        · exact ih (i + 1) d h2
      · rw [if_neg hk] at h
        exact ih (i + 1) d h

/-- Claim C1 as amended: in the works-dump path (`ingest_works`) every
persisted document has at least one resolved author name, but no title
check is performed there — the record's title is stored as retrieved, even
when absent; in the legacy path every persisted document has a truthy
(non-empty, present) title, but author resolution is not required.  The
original claim's symmetric two-condition eligibility holds in neither
path. -/
theorem c1_eligibility (records : List OLRec) (m : List (String × String))
    (limit : Option Int) (recsO : List (Option OLRec))
    (mL : List (String × (Option String × Option String))) (limitL : Option Int) :
    (∀ d ∈ ingest_works_docs records m limit, d.authors ≠ []) ∧
    (∀ b ∈ legacy_kept_docs recsO mL limitL, titleTruthy b.title = true) := by
  constructor
  · intro d hd
    exact iwGo_authors_nonempty m limit records 0 d hd
  · intro b hb
    exact (List.mem_filter.mp hb).2

/-- Claim C1, counterexample: a work record with a resolvable author but no
title at all is persisted by `ingest_works` (with a null title) — there is
no title check in that path; and a work record with a title but no
resolvable author is persisted by the legacy loop with null name fields —
author resolution is not checked there. -/
theorem c1_counterexample :
    ingest_works_docs
        [{ type := some (.tstr "/type/work"), key := some "/works/OL1W",
           authors := some [{ author := some { key := some "/authors/OL1A" } }] }]
        [("/authors/OL1A", "Jane Doe")] none =
      [{ key := some "/works/OL1W", title := none, authors := ["Jane Doe"], subjects := [] }] ∧
    legacy_kept_docs
        [some { type := some (.tstr "/type/work"), key := some "/works/OL2W",
                title := some "Titled" }] [] none =
      [{ title := some "Titled", author_first_name := none, author_last_name := none,
         country := "Unknown", published_date := none, out_of_print_date := none,
         _source := "openlibrary_works" }] :=
  ⟨by decide, by decide⟩

/-- Witness for C1's theorem at a concrete ingestion input. -/
theorem c1_witness :
    ({ key := some "/works/OL1W", title := none, authors := ["Jane Doe"],
       subjects := [] } : WDoc).authors ≠ [] :=
  (c1_eligibility
      [{ type := some (.tstr "/type/work"), key := some "/works/OL1W",
         authors := some [{ author := some { key := some "/authors/OL1A" } }] }]
      [("/authors/OL1A", "Jane Doe")] none [] [] none).1 _ (by decide)

/-- Helper: a limit of `None` or `0` never fires the break guard. -/
theorem breakAt_falsy (limit : Option Int) (h : limTruthy limit = false) (i : Nat) :
    breakAt limit i = false := by
  cases limit with
  | none => rfl
  | some z =>
    simp [limTruthy] at h
    simp [breakAt, h]

/-- Helper: with a never-firing limit, the authors scan is the plain fold
over every record. -/
theorem bamGo_all (limit : Option Int) (h : limTruthy limit = false) :
    ∀ (rs : List OLRec) (i : Nat) (m : List (String × String)),
      bamGo limit i m rs = rs.foldl bamStep m := by
  intro rs
  induction rs with
  | nil => intro i m; rfl
  | cons r rest ih =>
    intro i m
    simp only [bamGo, breakAt_falsy limit h i, if_false, List.foldl_cons]
    exact ih (i + 1) (bamStep m r)

/-- Helper: with a nonzero limit `z`, the authors scan processes exactly
the first `z.toNat - i` remaining records (none for a negative `z`). -/
theorem bamGo_take (z : Int) (hz : z ≠ 0) :
    ∀ (rs : List OLRec) (i : Nat) (m : List (String × String)),
      bamGo (some z) i m rs = (rs.take (z.toNat - i)).foldl bamStep m := by
  intro rs
  induction rs with
  | nil => intro i m; simp [bamGo]
  | cons r rest ih =>
    intro i m
    by_cases hb : z ≤ (i : Int)
    · have hb2 : breakAt (some z) i = true := by simp [breakAt, hz, hb]
      have ht : z.toNat - i = 0 := by omega
      simp [bamGo, hb2, ht]
    · have hb2 : breakAt (some z) i = false := by simp [breakAt, hb]
      have hpos : 0 < z := by
        rcases lt_trichotomy z 0 with h | h | h
        · exact absurd (le_trans (le_of_lt h) (Int.ofNat_nonneg i)) hb
        · exact absurd h hz
        · exact h
      have ht : z.toNat - i = (z.toNat - (i + 1)) + 1 := by omega
      simp only [bamGo, hb2, if_false, ht, List.take_succ_cons, List.foldl_cons]
      exact ih (i + 1) (bamStep m r)

/-- Helper: with a never-firing limit, the works loop keeps exactly the
filter-map over every record. -/
theorem iwGo_all (m : List (String × String)) (limit : Option Int)
    (h : limTruthy limit = false) :
    ∀ (rs : List OLRec) (i : Nat),
      iwGo m limit i rs = rs.filterMap (fun r =>
        if iwKeeps m r then some (mkWorkDoc r (resolveNames m r)) else none) := by
  intro rs
  induction rs with
  | nil => intro i; rfl
  | cons r rest ih =>
    intro i
    simp only [iwGo, breakAt_falsy limit h i, List.filterMap_cons]
    by_cases hk : iwKeeps m r
    · simp only [hk, if_true]
      rw [ih (i + 1)]
      simp
    · simp only [hk, if_false]
      rw [ih (i + 1)]
      simp

/-- Helper: with a nonzero limit `z`, the works loop processes exactly the
first `z.toNat - i` remaining records. -/
theorem iwGo_take (m : List (String × String)) (z : Int) (hz : z ≠ 0) :
    ∀ (rs : List OLRec) (i : Nat),
      iwGo m (some z) i rs = (rs.take (z.toNat - i)).filterMap (fun r =>
        if iwKeeps m r then some (mkWorkDoc r (resolveNames m r)) else none) := by
  intro rs
  induction rs with
  | nil => intro i; simp [iwGo]
  | cons r rest ih =>
    intro i
    by_cases hb : z ≤ (i : Int)
    · have hb2 : breakAt (some z) i = true := by simp [breakAt, hz, hb]
      have ht : z.toNat - i = 0 := by omega
      simp [iwGo, hb2, ht]
    · have hb2 : breakAt (some z) i = false := by simp [breakAt, hb]
      have hpos : 0 < z := by
        rcases lt_trichotomy z 0 with h | h | h
        · exact absurd (le_trans (le_of_lt h) (Int.ofNat_nonneg i)) hb
        · exact absurd h hz
        · exact h
      have ht : z.toNat - i = (z.toNat - (i + 1)) + 1 := by omega
      simp only [iwGo, hb2, ht, List.take_succ_cons, List.filterMap_cons]
      by_cases hk : iwKeeps m r
      · simp only [hk, if_true]
        rw [ih (i + 1)]
        simp
      · simp only [hk, if_false]
        rw [ih (i + 1)]
        simp

/-- Helper: with a never-firing limit, the legacy authors scan folds every
stream element. -/
theorem lamGo_all (limit : Option Int) (h : limTruthy limit = false) :
    ∀ (recs : List (Option OLRec)) (count : Nat)
      (m : List (String × (Option String × Option String))),
      lamGo limit count m recs =
        recs.foldl (fun m o => match o with | some r => lamStep m r | none => m) m := by
  intro recs
  induction recs with
  | nil => intro count m; rfl
  | cons o rest ih =>
    intro count m
    cases o with
    | none =>
      simp only [lamGo, List.foldl_cons]
      exact ih count m
    | some r =>
      simp only [lamGo, breakAt_falsy limit h (count + 1), List.foldl_cons]
      simpa using ih (count + 1) (lamStep m r)

/-- Helper: with a nonzero limit `z`, the legacy authors scan folds the
stream prefix through its `(z.toNat - count)`-th parsed record — through
the first parsed record when that bound is at most one, as happens for a
negative limit. -/
theorem lamGo_take (z : Int) (hz : z ≠ 0) :
    ∀ (recs : List (Option OLRec)) (count : Nat)
      (m : List (String × (Option String × Option String))),
      lamGo (some z) count m recs =
        (takeParsed (z.toNat - count) recs).foldl
          (fun m o => match o with | some r => lamStep m r | none => m) m := by
  intro recs
  induction recs with
  | nil => intro count m; simp [lamGo, takeParsed]
  | cons o rest ih =>
    intro count m
    cases o with
    | none =>
      simp only [lamGo, takeParsed, List.foldl_cons]
      exact ih count m
    | some r =>
      by_cases hb : z ≤ ((count + 1 : Nat) : Int)
      · have hb2 : breakAt (some z) (count + 1) = true := by
          simp only [breakAt, decide_eq_true_eq]
          refine Bool.and_eq_true_iff.mpr ⟨by simpa using hz, by simp; omega⟩
        have hn : z.toNat - count ≤ 1 := by omega
        have e1 : takeParsed (z.toNat - count) (some r :: rest) = [some r] := by
          simp [takeParsed, hn]
        rw [e1]
        simp [lamGo, hb2]
      · have hb2 : breakAt (some z) (count + 1) = false := by
          simp only [breakAt]
          simp
          omega
        have hn : ¬ (z.toNat - count ≤ 1) := by omega
        have e1 : takeParsed (z.toNat - count) (some r :: rest) =
            some r :: takeParsed (z.toNat - (count + 1)) rest := by
          have harith : z.toNat - count - 1 = z.toNat - (count + 1) := by omega
          rw [takeParsed, if_neg hn, harith]
        rw [e1, List.foldl_cons]
        simp only [lamGo, hb2]
        simpa using ih (count + 1) (lamStep m r)

/-- Claim C10 as amended: a limit of 0 or `None` disables the limit
entirely — every record in the source is examined — in `build_authors_map`,
`ingest_works` and the legacy `load_authors_map`; but it is not true that
only a strictly positive limit bounds the scan: any nonzero limit `z`
bounds it, the two dump-script scans examining the first `z.toNat` records
(none at all for a negative `z`) and the legacy scan stopping at its
`z.toNat`-th parsed record (the first one for a negative `z`). -/
theorem c10_zero_disables_limit (records : List OLRec) (m : List (String × String))
    (recsO : List (Option OLRec)) (z : Int) (hz : z ≠ 0) :
    build_authors_map records none = bamAll records ∧
    build_authors_map records (some 0) = bamAll records ∧
    ingest_works_docs records m none = iwAll records m ∧
    ingest_works_docs records m (some 0) = iwAll records m ∧
    load_authors_map recsO none = lamAll recsO ∧
    load_authors_map recsO (some 0) = lamAll recsO ∧
    build_authors_map records (some z) = bamAll (records.take z.toNat) ∧
    ingest_works_docs records m (some z) = iwAll (records.take z.toNat) m ∧
    load_authors_map recsO (some z) = lamAll (takeParsed z.toNat recsO) := by
  refine ⟨?_, ?_, ?_, ?_, ?_, ?_, ?_, ?_, ?_⟩
  · exact bamGo_all none rfl records 0 []
  · exact bamGo_all (some 0) (by simp [limTruthy]) records 0 []
  · exact iwGo_all m none rfl records 0
  · exact iwGo_all m (some 0) (by simp [limTruthy]) records 0
  · exact lamGo_all none rfl recsO 0 []
  · exact lamGo_all (some 0) (by simp [limTruthy]) recsO 0 []
  · simpa using bamGo_take z hz records 0 []
  · simpa using iwGo_take m z hz records 0
  · simpa using lamGo_take z hz recsO 0 []

/-- Claim C10, counterexample: a limit of `-1` is neither 0/None nor
strictly positive, yet it does bound the scan — `build_authors_map` with
limit `-1` examines no records and returns the empty map on a source whose
single record an unlimited scan does pick up. -/
theorem c10_counterexample :
    build_authors_map
        [{ type := some (.tstr "/type/author"), key := some "/authors/OL1A",
           name := some "Jane Doe" }] (some (-1)) = [] ∧
    bamAll [{ type := some (.tstr "/type/author"), key := some "/authors/OL1A",
              name := some "Jane Doe" }] = [("/authors/OL1A", "Jane Doe")] :=
  ⟨by decide, by decide⟩

/-- Witness for C10's theorem at a concrete source and the nonzero limit 2. -/
theorem c10_witness :
    ((2 : Int) ≠ 0) ∧
    build_authors_map
        [{ type := some (.tstr "/type/author"), key := some "/authors/OL1A",
           name := some "Jane Doe" }] none =
      bamAll [{ type := some (.tstr "/type/author"), key := some "/authors/OL1A",
                name := some "Jane Doe" }] :=
  ⟨by decide,
    (c10_zero_disables_limit
        [{ type := some (.tstr "/type/author"), key := some "/authors/OL1A",
           name := some "Jane Doe" }] [] [] 2 (by decide)).1⟩

/-- Helper: setting a key makes it present with the new value. -/
theorem dset_get_same (f : String) (v : BVal) :
    ∀ l : List (String × BVal),
      ((dset l f v).find? (fun p => p.1 = f)).map (fun p => p.2) = some v := by
  intro l
  induction l with
  | nil => simp [dset, List.find?]
  | cons p t ih =>
    obtain ⟨g, w⟩ := p
    by_cases h : g = f
    · subst h
      simp [dset, List.find?]
    · simp only [dset, if_neg h]
      rw [List.find?_cons_of_neg _ (by simp [h])]
      exact ih

/-- Helper: setting a key leaves other keys' lookups unchanged. -/
theorem dset_get_other (f g : String) (v : BVal) (hg : g ≠ f) :
    ∀ l : List (String × BVal),
      ((dset l f v).find? (fun p => p.1 = g)).map (fun p => p.2) =
        (l.find? (fun p => p.1 = g)).map (fun p => p.2) := by
  intro l
  induction l with
  | nil => simp [dset, List.find?, Ne.symm hg]
  | cons p t ih =>
    obtain ⟨g0, w⟩ := p
    by_cases h : g0 = f
    · subst h
      have e : dset ((g0, w) :: t) g0 v = (g0, v) :: t := by simp [dset]
      rw [e]
      rw [List.find?_cons_of_neg _ (by simp [Ne.symm hg]),
        List.find?_cons_of_neg _ (by simp [Ne.symm hg])]
    · simp only [dset, if_neg h]
      by_cases h2 : g0 = g
      · subst h2
        rw [List.find?_cons_of_pos _ (by simp), List.find?_cons_of_pos _ (by simp)]
      · rw [List.find?_cons_of_neg _ (by simp [h2]), List.find?_cons_of_neg _ (by simp [h2])]
        exact ih

/-- Helper: `getF` after `setF` on the same field. -/
theorem getF_setF_same (d : MDoc) (f : String) (v : BVal) :
    getF (setF d f v) f = some v :=
  dset_get_same f v d.fields

/-- Helper: `getF` after `setF` on a different field. -/
theorem getF_setF_other (d : MDoc) (f g : String) (v : BVal) (hg : g ≠ f) :
    getF (setF d f v) g = getF d g :=
  dset_get_other f g v hg d.fields

/-- Helper: the value written back by the date coercion is never a string. -/
theorem parsedBVal_not_str (v : BVal) (s : String) : parsedBVal v ≠ .vstr s := by
  unfold parsedBVal
  cases parse_date_maybe v <;> simp

/-- Helper: after setting a non-string value, the field is not
string-typed. -/
theorem isStrF_setF_self (d : MDoc) (f : String) (v : BVal)
    (hv : ∀ s, v ≠ .vstr s) : isStrF (setF d f v) f = false := by
  unfold isStrF
  rw [getF_setF_same]
  cases v with
  | vstr s => exact absurd rfl (hv s)
  | vnull => rfl
  | vint n => rfl
  | vbool b => rfl
  | vdate dd => rfl

/-- Helper: an update keeps the document id sequence. -/
theorem update_ids (i : Nat) (f : String) (v : BVal) :
    ∀ col : List MDoc,
      ((update_one_id col i f v).1).map (fun d => d.id) = col.map (fun d => d.id) := by
  intro col
  induction col with
  | nil => rfl
  | cons d t ih =>
    by_cases h : d.id = i
    · simp [update_one_id, h, setF]
    · simp only [update_one_id, if_neg h, List.map_cons]
      rw [ih]

/-- Helper: every document after an update is an original document or the
rewritten form of an original with the targeted id. -/
theorem update_mem (i : Nat) (f : String) (v : BVal) :
    ∀ (col : List MDoc) (d2 : MDoc), d2 ∈ (update_one_id col i f v).1 →
      d2 ∈ col ∨ ∃ d ∈ col, d.id = i ∧ d2 = setF d f v := by
  intro col
  induction col with
  | nil => intro d2 h; simp [update_one_id] at h
  | cons d t ih =>
    intro d2 h
    by_cases hid : d.id = i
    · simp only [update_one_id, if_pos hid] at h
      rcases List.mem_cons.mp h with rfl | h2
      · exact Or.inr ⟨d, by simp, hid, rfl⟩
      · exact Or.inl (List.mem_cons_of_mem _ h2)
    · simp only [update_one_id, if_neg hid] at h
      rcases List.mem_cons.mp h with rfl | h2
      · exact Or.inl (List.mem_cons_self _ _)
      · rcases ih d2 h2 with h3 | ⟨d0, hd0, he, hs⟩
        · exact Or.inl (List.mem_cons_of_mem _ h3)
        · exact Or.inr ⟨d0, List.mem_cons_of_mem _ hd0, he, hs⟩

/-- Helper: under unique ids, after updating id `i` with a non-string
value no document with id `i` is string-typed in the field. -/
theorem update_clean_id (i : Nat) (f : String) (v : BVal) (hv : ∀ s, v ≠ .vstr s) :
    ∀ col : List MDoc, (col.map (fun d => d.id)).Nodup →
      ∀ d2 ∈ (update_one_id col i f v).1, d2.id = i → isStrF d2 f = false := by
  intro col
  induction col with
  | nil => intro _ d2 h; simp [update_one_id] at h
  | cons d t ih =>
    intro hnd d2 h hid2
    have hnd2 : (t.map (fun d => d.id)).Nodup := (List.nodup_cons.mp hnd).2
    have hdnotin : d.id ∉ t.map (fun d => d.id) := (List.nodup_cons.mp hnd).1
    by_cases hid : d.id = i
    · simp only [update_one_id, if_pos hid] at h
      rcases List.mem_cons.mp h with rfl | h2
      · exact isStrF_setF_self d f v hv
      · exfalso
        apply hdnotin
        rw [hid, ← hid2]
        exact List.mem_map_of_mem (fun d => d.id) h2
    · simp only [update_one_id, if_neg hid] at h
      rcases List.mem_cons.mp h with rfl | h2
      · exact absurd hid2 hid
      · exact ih hnd2 d2 h2 hid2

/-- Helper: updating with a non-string value cannot create a string-typed
field anywhere. -/
theorem update_preserve_nonstr (i : Nat) (f : String) (v : BVal)
    (hv : ∀ s, v ≠ .vstr s) (g : String) :
    ∀ col : List MDoc, (∀ d ∈ col, isStrF d g = false) →
      ∀ d2 ∈ (update_one_id col i f v).1, isStrF d2 g = false := by
  intro col hcol d2 h2
  rcases update_mem i f v col d2 h2 with h3 | ⟨d0, hd0, _, hs⟩
  · exact hcol d2 h3
  · subst hs
    by_cases hgf : g = f
    · subst hgf
      exact isStrF_setF_self d0 g v hv
    · unfold isStrF
      rw [getF_setF_other d0 f g v hgf]
      have := hcol d0 hd0
      unfold isStrF at this
      exact this

/-- Helper: the per-field update loop keeps the id sequence. -/
theorem cfGo_ids (f : String) :
    ∀ (ms : List MDoc) (st : List MDoc),
      ((cfGo f st ms).1).map (fun d => d.id) = st.map (fun d => d.id) := by
  intro ms
  induction ms with
  | nil => intro st; rfl
  | cons m t ih =>
    intro st
    simp only [cfGo]
    rw [ih, update_ids]

/-- Helper: after the per-field loop has processed a snapshot covering all
string-typed documents (under unique ids), no document is string-typed in
the field. -/
theorem cfGo_clean (f : String) :
    ∀ (ms : List MDoc) (st : List MDoc),
      (st.map (fun d => d.id)).Nodup →
      (∀ d ∈ st, isStrF d f = true → d.id ∈ ms.map (fun d => d.id)) →
      ∀ d2 ∈ (cfGo f st ms).1, isStrF d2 f = false := by
  intro ms
  induction ms with
  | nil =>
    intro st _ hcov d2 h2
    simp only [cfGo] at h2
    cases hS : isStrF d2 f with
    | false => rfl
    | true => simpa using hcov d2 h2 hS
  | cons m t ih =>
    intro st hnd hcov d2 h2
    simp only [cfGo] at h2
    set v := parsedBVal ((getF m f).getD .vnull) with hv
    have hvns : ∀ s, v ≠ .vstr s := fun s => parsedBVal_not_str _ s
    have hnd2 : (((update_one_id st m.id f v).1).map (fun d => d.id)).Nodup := by
      rw [update_ids]; exact hnd
    refine ih (update_one_id st m.id f v).1 hnd2 ?_ d2 h2
    intro d hd hS
    rcases update_mem m.id f v st d hd with h3 | ⟨d0, _, _, hs⟩
    · by_cases hdm : d.id = m.id
      · have := update_clean_id m.id f v hvns st hnd d hd hdm
        rw [this] at hS
        cases hS
      · have := hcov d h3 hS
        simp only [List.map_cons, List.mem_cons] at this
        rcases this with h4 | h4
        · exact absurd h4 hdm
        · exact h4
    · subst hs
      rw [isStrF_setF_self d0 f v hvns] at hS
      cases hS

/-- Helper: the per-field loop cannot create string-typed values in any
field. -/
theorem cfGo_preserve (f g : String) :
    ∀ (ms : List MDoc) (st : List MDoc),
      (∀ d ∈ st, isStrF d g = false) →
      ∀ d2 ∈ (cfGo f st ms).1, isStrF d2 g = false := by
  intro ms
  induction ms with
  | nil => intro st h d2 h2; exact h d2 h2
  | cons m t ih =>
    intro st h d2 h2
    simp only [cfGo] at h2
    exact ih _ (update_preserve_nonstr m.id f _ (fun s => parsedBVal_not_str _ s) g st h) d2 h2

/-- Helper: one field pass leaves every document non-string in that field
(unique ids). -/
theorem convertField_clean (col : List MDoc) (f : String)
    (hnd : (col.map (fun d => d.id)).Nodup) :
    ∀ d2 ∈ (convertField col f).1, isStrF d2 f = false := by
  refine cfGo_clean f _ col hnd ?_
  intro d hd hS
  have hmem : d ∈ col.filter (fun d => isStrF d f) := List.mem_filter.mpr ⟨hd, by simpa using hS⟩
  exact List.mem_map_of_mem (fun d => d.id) hmem

/-- Helper: one field pass keeps the id sequence. -/
theorem convertField_ids (col : List MDoc) (f : String) :
    ((convertField col f).1).map (fun d => d.id) = col.map (fun d => d.id) :=
  cfGo_ids f _ col

/-- Helper: one field pass preserves cleanliness of any field. -/
theorem convertField_preserve (col : List MDoc) (f g : String)
    (h : ∀ d ∈ col, isStrF d g = false) :
    ∀ d2 ∈ (convertField col f).1, isStrF d2 g = false :=
  cfGo_preserve f g _ col h

/-- Helper: a field pass over a clean field does nothing and reports zero
modifications. -/
theorem convertField_noop (col : List MDoc) (f : String)
    (h : ∀ d ∈ col, isStrF d f = false) :
    convertField col f = (col, 0) := by
  unfold convertField
  have e : col.filter (fun d => isStrF d f) = [] := by
    rw [List.filter_eq_nil_iff]
    intro d hd
    simp [h d hd]
  rw [e]
  rfl

/-- Helper: invariants of a full `convert_date_fields` pass — ids keep,
cleanliness of any field is preserved, and every processed field ends
clean (unique ids). -/
theorem convert_invariants :
    ∀ (fields : List String) (col : List MDoc),
      (col.map (fun d => d.id)).Nodup →
      (((convert_date_fields col fields).1).map (fun d => d.id) = col.map (fun d => d.id)) ∧
      (∀ g, (∀ d ∈ col, isStrF d g = false) →
        ∀ d2 ∈ (convert_date_fields col fields).1, isStrF d2 g = false) ∧
      (∀ f ∈ fields, ∀ d2 ∈ (convert_date_fields col fields).1, isStrF d2 f = false) := by
  intro fields
  induction fields with
  | nil =>
    intro col _
    refine ⟨rfl, ?_, ?_⟩
    · intro g h d2 h2; exact h d2 h2
    · intro f hf; cases hf
  | cons f fs ih =>
    intro col hnd
    have hnd1 : (((convertField col f).1).map (fun d => d.id)).Nodup := by
      rw [convertField_ids]; exact hnd
    obtain ⟨ih_ids, ih_pres, ih_all⟩ := ih (convertField col f).1 hnd1
    have hstate : (convert_date_fields col (f :: fs)).1 =
        (convert_date_fields (convertField col f).1 fs).1 := by
      simp only [convert_date_fields]
    refine ⟨?_, ?_, ?_⟩
    · rw [hstate, ih_ids, convertField_ids]
    · intro g hg d2 h2
      rw [hstate] at h2
      exact ih_pres g (convertField_preserve col f g hg) d2 h2
    · intro f2 hf2 d2 h2
      rw [hstate] at h2
      rcases List.mem_cons.mp hf2 with rfl | hf3
      · exact ih_pres f2 (convertField_clean col f2 hnd) d2 h2
      · exact ih_all f2 hf3 d2 h2

/-- Helper: a run over fields that are all clean does nothing and reports
zero modified documents. -/
theorem convert_noop :
    ∀ (fields : List String) (col : List MDoc),
      (∀ f ∈ fields, ∀ d ∈ col, isStrF d f = false) →
      convert_date_fields col fields = (col, 0) := by
  intro fields
  induction fields with
  | nil => intro col _; rfl
  | cons f fs ih =>
    intro col h
    have h1 : convertField col f = (col, 0) :=
      convertField_noop col f (h f (by simp))
    have h2 : convert_date_fields col fs = (col, 0) :=
      ih col (fun g hg d hd => h g (List.mem_cons_of_mem _ hg) d hd)
    simp only [convert_date_fields, h1, h2]

/-- Claim C8: `convert_date_fields` is idempotent — for every collection
state with unique `_id`s (the store's invariant) and every field list, a
second run immediately after a first modifies 0 documents and leaves the
state unchanged, because after the first run none of the named fields
holds a string-typed value in any document. -/
theorem c8_convert_idempotent (col : List MDoc) (fields : List String)
    (hnd : (col.map (fun d => d.id)).Nodup) :
    convert_date_fields (convert_date_fields col fields).1 fields =
      ((convert_date_fields col fields).1, 0) :=
  convert_noop fields (convert_date_fields col fields).1
    (fun f hf d hd => (convert_invariants fields col hnd).2.2 f hf d hd)

/-- Witness for C8's theorem on a concrete two-document collection with
one parseable and one junk date string. -/
theorem c8_witness :
    (([({ id := 3, fields := [("published_date", .vstr "1999-02-28")] } : MDoc),
       { id := 4, fields := [("published_date", .vstr "junk")] }].map (fun d => d.id)).Nodup) ∧
    convert_date_fields
        (convert_date_fields
          [({ id := 3, fields := [("published_date", .vstr "1999-02-28")] } : MDoc),
           { id := 4, fields := [("published_date", .vstr "junk")] }] ["published_date"]).1
        ["published_date"] =
      ((convert_date_fields
          [({ id := 3, fields := [("published_date", .vstr "1999-02-28")] } : MDoc),
           { id := 4, fields := [("published_date", .vstr "junk")] }] ["published_date"]).1, 0) :=
  ⟨by decide, c8_convert_idempotent _ _ (by decide)⟩

/-- Helper: chunking the empty stream. -/
theorem chunkB_nil {α : Type} (bs : Nat) : chunkB bs ([] : List α) = [] := by
  simp [chunkB]

/-- Helper: a non-empty stream no longer than the batch size is one chunk. -/
theorem chunkB_small {α : Type} (bs : Nat) (hbs : 1 ≤ bs) (l : List α)
    (hne : l ≠ []) (hle : l.length ≤ bs) : chunkB bs l = [l] := by
  cases l with
  | nil => exact absurd rfl hne
  | cons x xs =>
    rw [chunkB, if_neg (by omega)]
    have hx : xs.length ≤ bs - 1 := by
      simp only [List.length_cons] at hle
      omega
    have h1 : xs.take (bs - 1) = xs := List.take_of_length_le hx
    have h2 : xs.drop (bs - 1) = [] := List.drop_eq_nil_of_le hx
    rw [h1, h2, chunkB_nil]

/-- Helper: a full-size prefix is split off as the first chunk. -/
theorem chunkB_exact {α : Type} (bs : Nat) (hbs : 1 ≤ bs) (l rest : List α)
    (hl : l.length = bs) : chunkB bs (l ++ rest) = l :: chunkB bs rest := by
  cases l with
  | nil => simp at hl; omega
  | cons x xs =>
    rw [List.cons_append, chunkB, if_neg (by omega)]
    have hxs : xs.length = bs - 1 := by
      simp only [List.length_cons] at hl
      omega
    have h1 : (xs ++ rest).take (bs - 1) = xs := by
      rw [← hxs]
      exact List.take_left xs rest
    have h2 : (xs ++ rest).drop (bs - 1) = rest := by
      rw [← hxs]
      exact List.drop_left xs rest
    rw [h1, h2]

/-- Helper: flushing a final partial batch equals one flush over its
single chunk. -/
theorem flush_tail (oracle : Nat → InsRes) (bs : Nat) (hbs : 1 ≤ bs)
    (batch : List WDoc) (fi : Nat) (hlen : batch.length < bs) :
    (if batch ≠ [] then _insert_batch (oracle fi) batch else 0) =
      sumFlushes oracle fi (chunkB bs batch) := by
  by_cases hne : batch = []
  · subst hne
    simp [chunkB_nil, sumFlushes]
  · rw [chunkB_small bs hbs batch hne (le_of_lt hlen)]
    simp [sumFlushes, hne]

/-- Helper: the `ingest_works` loop decomposes into store-reported counts
over the greedy chunking of its document stream — every chunk is flushed
and counted with the store outcome of its own flush, independent of the
outcomes of earlier flushes. -/
theorem iwRun_chunks (m : List (String × String)) (limit : Option Int) (bs : Nat)
    (oracle : Nat → InsRes) (hbs : 1 ≤ bs) :
    ∀ (rs : List OLRec) (batch : List WDoc) (i fi : Nat), batch.length < bs →
      iwRunGo m limit bs oracle i batch fi rs =
        sumFlushes oracle fi (chunkB bs (batch ++ iwGo m limit i rs)) := by
  intro rs
  induction rs with
  | nil =>
    intro batch i fi hlen
    simp only [iwRunGo, iwGo, List.append_nil]
    exact flush_tail oracle bs hbs batch fi hlen
  | cons r rs ih =>
    intro batch i fi hlen
    cases hb : breakAt limit i with
    | true =>
      simp only [iwRunGo, iwGo, hb, if_true, List.append_nil]
      exact flush_tail oracle bs hbs batch fi hlen
    | false =>
      cases hk : iwKeeps m r with
      | false =>
        simp only [iwRunGo, iwGo, hb, hk]
        simp only [Bool.false_eq_true, if_false]
        exact ih batch (i + 1) fi hlen
      | true =>
        simp only [iwRunGo, iwGo, hb, hk]
        simp only [Bool.false_eq_true, if_false, if_true]
        by_cases hfull : bs ≤ (batch ++ [mkWorkDoc r (resolveNames m r)]).length
        · rw [if_pos hfull]
          have hexact : (batch ++ [mkWorkDoc r (resolveNames m r)]).length = bs := by
            simp only [List.length_append, List.length_cons, List.length_nil] at hfull ⊢
            omega
          have hsplit : batch ++ mkWorkDoc r (resolveNames m r) :: iwGo m limit (i + 1) rs =
              (batch ++ [mkWorkDoc r (resolveNames m r)]) ++ iwGo m limit (i + 1) rs := by
            simp [List.append_assoc]
          rw [hsplit, chunkB_exact bs hbs _ _ hexact]
          simp only [sumFlushes]
          have := ih [] (i + 1) (fi + 1) (by simpa using hbs)
          simp only [List.nil_append] at this
          rw [this]
        · rw [if_neg hfull]
          have hlen2 : (batch ++ [mkWorkDoc r (resolveNames m r)]).length < bs := by
            simp only [List.length_append, List.length_cons, List.length_nil] at hfull ⊢
            omega
          have := ih (batch ++ [mkWorkDoc r (resolveNames m r)]) (i + 1) fi hlen2
          rw [this]
          congr 1
          congr 1
          simp [List.append_assoc]

/-- Helper: the legacy insert loop decomposes into per-chunk bulk writes:
full batches are written in order, a failed write aborts the run with that
error, and on success each batch contributes its full length to the
count. -/
theorem legacyGo_chunks (m : List (String × (Option String × Option String)))
    (bs : Nat) (oracle : Nat → InsRes) (hbs : 1 ≤ bs) :
    ∀ (ws : List OLRec) (ops : List BookDoc) (ins : Int) (fi : Nat), ops.length < bs →
      legacyGo m bs oracle ops ins fi ws =
        (match legacyChunks oracle fi
            (chunkB bs (ops ++ ((ws.map (fun w => to_book_doc w m)).filter
              (fun b => titleTruthy b.title)))) with
         | .ok n => .ok (ins + n)
         | .error e => .error e) := by
  intro ws
  induction ws with
  | nil =>
    intro ops ins fi hlen
    simp only [legacyGo, List.map_nil, List.filter_nil, List.append_nil]
    by_cases hne : ops = []
    · subst hne
      simp [chunkB_nil, legacyChunks]
    · rw [chunkB_small bs hbs ops hne (le_of_lt hlen)]
      simp only [legacyChunks]
      cases ho : oracle fi with
      | ok => simp [hne, bulk_write, ho]
      | bwerr e => simp [hne, bulk_write, ho]
  | cons w ws ih =>
    intro ops ins fi hlen
    cases ht : titleTruthy (to_book_doc w m).title with
    | false =>
      have hstep : legacyGo m bs oracle ops ins fi (w :: ws) =
          legacyGo m bs oracle ops ins fi ws := by
        simp [legacyGo, ht]
      have hkept : ((w :: ws).map (fun w => to_book_doc w m)).filter
            (fun b => titleTruthy b.title) =
          (ws.map (fun w => to_book_doc w m)).filter (fun b => titleTruthy b.title) := by
        simp [List.filter_cons, ht]
      rw [hstep, hkept]
      exact ih ops ins fi hlen
    | true =>
      have hkept : ((w :: ws).map (fun w => to_book_doc w m)).filter
            (fun b => titleTruthy b.title) =
          to_book_doc w m ::
            (ws.map (fun w => to_book_doc w m)).filter (fun b => titleTruthy b.title) := by
        simp [List.filter_cons, ht]
      rw [hkept]
      by_cases hfull : bs ≤ (ops ++ [to_book_doc w m]).length
      · have hstep : legacyGo m bs oracle ops ins fi (w :: ws) =
            (match bulk_write (oracle fi) with
             | .ok _ =>
               legacyGo m bs oracle [] (ins + (ops ++ [to_book_doc w m]).length) (fi + 1) ws
             | .error e => .error e) := by
          have hfull2 : bs ≤ ops.length + 1 := by simpa using hfull
          simp [legacyGo, ht, hfull2]
        rw [hstep]
        have hexact : (ops ++ [to_book_doc w m]).length = bs := by
          simp only [List.length_append, List.length_cons, List.length_nil] at hfull ⊢
          omega
        have hsplit : ops ++ to_book_doc w m ::
              (ws.map (fun w => to_book_doc w m)).filter (fun b => titleTruthy b.title) =
            (ops ++ [to_book_doc w m]) ++
              (ws.map (fun w => to_book_doc w m)).filter (fun b => titleTruthy b.title) := by
          simp [List.append_assoc]
        rw [hsplit, chunkB_exact bs hbs _ _ hexact]
        cases ho : oracle fi with
        | ok =>
          simp only [legacyChunks, ho, bulk_write]
          have hrec := ih [] (ins + (ops ++ [to_book_doc w m]).length) (fi + 1)
            (by simpa using hbs)
          simp only [List.nil_append] at hrec
          rw [hrec]
          cases hcs : legacyChunks oracle (fi + 1)
              (chunkB bs ((ws.map (fun w => to_book_doc w m)).filter
                (fun b => titleTruthy b.title))) with
          | ok n =>
            simp only []
            congr 1
            omega
          | error e => simp only []
        | bwerr e =>
          simp only [legacyChunks, ho, bulk_write]
      · have hstep : legacyGo m bs oracle ops ins fi (w :: ws) =
            legacyGo m bs oracle (ops ++ [to_book_doc w m]) ins fi ws := by
          have hfull2 : ¬ bs ≤ ops.length + 1 := by simpa using hfull
          simp [legacyGo, ht, hfull2]
        rw [hstep]
        have hlen2 : (ops ++ [to_book_doc w m]).length < bs := by
          simp only [List.length_append, List.length_cons, List.length_nil] at hfull ⊢
          omega
        rw [ih (ops ++ [to_book_doc w m]) ins fi hlen2]
        have hsplit : (ops ++ [to_book_doc w m]) ++
              (ws.map (fun w => to_book_doc w m)).filter (fun b => titleTruthy b.title) =
            ops ++ to_book_doc w m ::
              (ws.map (fun w => to_book_doc w m)).filter (fun b => titleTruthy b.title) := by
          simp [List.append_assoc]
        rw [hsplit]

/-- Claim C3 as amended: in the dump script every batch's contribution to
the inserted count is exactly the store-reported count for that batch
(`len(inserted_ids)` on success, `nInserted` from the error details on
partial failure) and every batch is processed regardless of earlier
failures — the run never aborts; in the legacy script batches are
bulk-written in order and on success counted at full batch length
(`inserted += len(ops)`), but a partial bulk-write failure raises out of
the loop and aborts the run with that error, so the claimed
count-and-continue behaviour holds only for the dump script. -/
theorem c3_batch_accounting (records : List OLRec) (m : List (String × String))
    (limit : Option Int) (recsO : List (Option OLRec))
    (mL : List (String × (Option String × Option String))) (limitL : Option Int)
    (bs : Nat) (oracle oracleL : Nat → InsRes) (hbs : 1 ≤ bs) :
    ingest_works_run records m limit bs oracle =
      sumFlushes oracle 0 (chunkB bs (ingest_works_docs records m limit)) ∧
    legacy_run recsO mL limitL bs oracleL =
      legacyChunks oracleL 0 (chunkB bs (legacy_kept_docs recsO mL limitL)) := by
  constructor
  · have h := iwRun_chunks m limit bs oracle hbs records [] 0 0 (by simpa using hbs)
    simpa [ingest_works_run, ingest_works_docs] using h
  · have h := legacyGo_chunks mL bs oracleL hbs (iter_works limitL 0 recsO) [] 0 0
      (by simpa using hbs)
    have hkept : ([] : List BookDoc) ++
        (((iter_works limitL 0 recsO).map (fun w => to_book_doc w mL)).filter
          (fun b => titleTruthy b.title)) = legacy_kept_docs recsO mL limitL := by
      simp [legacy_kept_docs]
    rw [hkept] at h
    show legacyGo mL bs oracleL [] 0 0 (iter_works limitL 0 recsO) = _
    rw [h]
    cases legacyChunks oracleL 0 (chunkB bs (legacy_kept_docs recsO mL limitL)) with
    | ok n => simp
    | error e => rfl

/-- Claim C3, counterexample: on a one-work source with batch size 1 and a
store that reports a partial bulk-write failure, the legacy script's run
aborts with the raised `BulkWriteError` (it has no handler), rather than
counting store-reported inserts and continuing; the dump script on the
same kind of failure does continue — with two kept works, batch size 1, a
first flush failing with `nInserted = 0` and a second succeeding, it
returns 1. -/
theorem c3_counterexample :
    legacy_run
        [some { type := some (.tstr "/type/work"), key := some "/works/OL2W",
                title := some "Titled" }] [] none 1 (fun _ => .bwerr (some 3)) =
      .error (some 3) ∧
    ingest_works_run
        [{ type := some (.tstr "/type/work"), key := some "/works/OL1W",
           authors := some [{ author := some { key := some "/authors/OL1A" } }] },
         { type := some (.tstr "/type/work"), key := some "/works/OL1W",
           authors := some [{ author := some { key := some "/authors/OL1A" } }] }]
        [("/authors/OL1A", "Jane Doe")] none 1
        (fun i => if i = 0 then .bwerr (some 0) else .ok) = 1 :=
  ⟨rfl, by decide⟩

/-- Witness for C3's theorem at batch size 2 on a concrete source. -/
theorem c3_witness :
    (1 ≤ 2) ∧
    ingest_works_run
        [{ type := some (.tstr "/type/work"), key := some "/works/OL1W",
           authors := some [{ author := some { key := some "/authors/OL1A" } }] }]
        [("/authors/OL1A", "Jane Doe")] none 2 (fun _ => .ok) =
      sumFlushes (fun _ => .ok) 0 (chunkB 2 (ingest_works_docs
        [{ type := some (.tstr "/type/work"), key := some "/works/OL1W",
           authors := some [{ author := some { key := some "/authors/OL1A" } }] }]
        [("/authors/OL1A", "Jane Doe")] none)) :=
  ⟨by decide,
    (c3_batch_accounting
        [{ type := some (.tstr "/type/work"), key := some "/works/OL1W",
           authors := some [{ author := some { key := some "/authors/OL1A" } }] }]
        [("/authors/OL1A", "Jane Doe")] none [] [] none 2 (fun _ => .ok) (fun _ => .ok)
        (by decide)).1⟩

/-- Witness for C5's theorem: a concrete sample with two tsv hits and one
json hit is classified as tsv mode, by the theorem's decision rule. -/
theorem c5_witness :
    (detect_record_mode (fun s => s = "x") ["a\tx", "a\tx", "x"] 50).1 = .tsvM :=
  (c5_mode_decision (fun s => s = "x") ["a\tx", "a\tx", "x"] 50).mpr
    ⟨by decide, by decide⟩
